import Mathlib

namespace DBF

/-- Metadata about a data builder (src `types/index.ts`, `DataBuilderMeta`). -/
structure DataBuilderMeta where
  name : String
  provides : String
  consumes : List String
deriving Repr, DecidableEq

/-- The dependency graph: the node map keyed by `provides`, in insertion
order.  Dependency/dependent sets are recomputed from the metadata by
`buildGraph`, so they are derived on demand here (`depsOf`). -/
abbrev Graph := List DataBuilderMeta

/-- `DependencyGraph.addBuilder`: insert keyed by `provides`, first wins. -/
def addBuilder (g : Graph) (meta : DataBuilderMeta) : Graph :=
  if g.any (fun n => n.provides == meta.provides) then g else g ++ [meta]

/-- `ExecutionPlanner.buildDependencyGraph`: fold the registry metadata
through `addBuilder` (edge wiring by `buildGraph` is derived by `depsOf`). -/
def buildDependencyGraph (ms : List DataBuilderMeta) : Graph :=
  ms.foldl addBuilder []

/-- `this.nodes.get(key)`. -/
def findNode (g : Graph) (key : String) : Option DataBuilderMeta :=
  g.find? (fun n => n.provides == key)

/-- Iteration order of a JavaScript `Set` populated by repeated `add`
calls: first occurrence of each element is kept. -/
def setDedup (l : List String) : List String :=
  go l []
where
  go : List String → List String → List String
    | [], _ => []
    | x :: xs, seen => if x ∈ seen then go xs seen else x :: go xs (x :: seen)

/-- The dependency list of a node as wired by `DependencyGraph.buildGraph`:
one edge per consumed type that has a registered node, deduplicated in
insertion order (the `Set<DependencyNode>`). -/
def depsOf (g : Graph) (m : DataBuilderMeta) : List String :=
  setDedup (m.consumes.filter (fun c => (findNode g c).isSome))

/-- Dependencies of the node registered for `key` (empty when missing,
matching the `if (node)` guards in the source). -/
def depsOfKey (g : Graph) (key : String) : List String :=
  match findNode g key with
  | some m => depsOf g m
  | none => []

/-- The dependency edge relation of a built graph. -/
def edgeTo (g : Graph) (a d : String) : Prop :=
  d ∈ depsOfKey g a

instance (g : Graph) (a d : String) : Decidable (edgeTo g a d) := by
  unfold edgeTo; infer_instance

/-- No node has a nonempty dependency path back to itself. -/
def Acyclic (g : Graph) : Prop :=
  ¬ ∃ k, Relation.TransGen (edgeTo g) k k

/-- The depth-first `visit` of `DependencyGraph.getExecutionOrder`.  State:
`(visited, result)`.  The source recursion terminates because a node is
marked visited before its dependencies are visited; here that argument is
made explicit with a fuel parameter consumed once per freshly entered node
(`getExecutionOrder` supplies one unit per graph node, which
`visitList_spec` proves sufficient). -/
def visitNode (g : Graph) : Nat → String → List String × List String →
    List String × List String
  | fuel, key, (vis, res) =>
    if key ∈ vis then (vis, res)
    else
      match findNode g key with
      | none => (vis, res)
      | some m =>
        match fuel with
        | 0 => (vis, res)
        | fuel' + 1 =>
          let p := (depsOf g m).foldl (fun s d => visitNode g fuel' d s)
            (key :: vis, res)
          (p.1, p.2 ++ [key])

/-- Visiting a list of keys left to right (the `for` loops of
`getExecutionOrder` and of `visit` over a node's dependencies). -/
def visitList (g : Graph) (fuel : Nat) (todo : List String)
    (st : List String × List String) : List String × List String :=
  todo.foldl (fun s k => visitNode g fuel k s) st

/-- `DependencyGraph.getExecutionOrder(targetTypes)`: depth-first visit of
each target (skipping unregistered targets), dependencies first; returns
the `provides` keys of the visited nodes in append order. -/
def getExecutionOrder (g : Graph) (targetTypes : List String) : List String :=
  (visitList g g.length targetTypes ([], [])).2

theorem mem_setDedup_go {x : String} :
    ∀ {l seen : List String}, x ∈ setDedup.go l seen ↔ (x ∈ l ∧ x ∉ seen) := by
  intro l
  induction l with
  | nil => intro seen; simp [setDedup.go]
  | cons y ys ih =>
    intro seen
    rw [setDedup.go]
    by_cases hy : y ∈ seen
    · rw [if_pos hy, ih]
      constructor
      · rintro ⟨h1, h2⟩
        exact ⟨List.mem_cons_of_mem _ h1, h2⟩
      · rintro ⟨h1, h2⟩
        rcases List.mem_cons.mp h1 with rfl | h3
        · exact absurd hy h2
        · exact ⟨h3, h2⟩
    · rw [if_neg hy]
      simp only [List.mem_cons, ih]
      constructor
      · rintro (rfl | ⟨h1, h2⟩)
        · exact ⟨Or.inl rfl, hy⟩
        · refine ⟨Or.inr h1, fun hc => h2 (Or.inr hc)⟩
      · rintro ⟨rfl | h1, h2⟩
        · exact Or.inl rfl
        · by_cases hxy : x = y
          · exact Or.inl hxy
          · refine Or.inr ⟨h1, fun hc => ?_⟩
            rcases hc with h3 | h3
            · exact hxy h3
            · exact h2 h3

theorem mem_setDedup {x : String} {l : List String} :
    x ∈ setDedup l ↔ x ∈ l := by
  unfold setDedup
  rw [mem_setDedup_go]
  simp

theorem findNode_eq_some {g : Graph} {key : String} {m : DataBuilderMeta}
    (h : findNode g key = some m) : m ∈ g ∧ m.provides = key := by
  refine ⟨List.mem_of_find?_eq_some h, ?_⟩
  have := List.find?_some h
  simpa using this

theorem mem_depsOf_isSome {g : Graph} {m : DataBuilderMeta} {d : String}
    (h : d ∈ depsOf g m) : (findNode g d).isSome := by
  unfold depsOf at h
  rw [mem_setDedup] at h
  exact (List.mem_filter.mp h).2

theorem edgeTo_of_findNode {g : Graph} {key d : String} {m : DataBuilderMeta}
    (hf : findNode g key = some m) (hd : d ∈ depsOf g m) : edgeTo g key d := by
  unfold edgeTo depsOfKey
  rw [hf]
  exact hd

theorem edgeTo_mem {g : Graph} {a d : String} (h : edgeTo g a d) :
    ∃ m ∈ g, m.provides = a ∧ d ∈ depsOf g m := by
  unfold edgeTo depsOfKey at h
  cases hf : findNode g a with
  | none => rw [hf] at h; simp at h
  | some m =>
    rw [hf] at h
    obtain ⟨hm, hprov⟩ := findNode_eq_some hf
    exact ⟨m, hm, hprov, h⟩

/-- Lists in dependency-respecting order, built by appending a node after
all its dependencies. -/
inductive TopoSorted (g : Graph) : List String → Prop where
  | nil : TopoSorted g []
  | snoc {res : List String} {a : String} : TopoSorted g res → a ∉ res →
      (∀ d, edgeTo g a d → d ∈ res) → TopoSorted g (res ++ [a])

theorem TopoSorted.nodup {g : Graph} {res : List String}
    (h : TopoSorted g res) : res.Nodup := by
  induction h with
  | nil => simp
  | snoc _ hmem _ ih => simp [List.nodup_append, ih, hmem]

theorem TopoSorted.deps_before {g : Graph} {res : List String}
    (h : TopoSorted g res) :
    ∀ l1 a l2, res = l1 ++ a :: l2 → ∀ d, edgeTo g a d → d ∈ l1 := by
  induction h with
  | nil =>
    intro l1 a l2 heq
    exact absurd heq (by simp)
  | @snoc res b hres hb hdeps ih =>
    intro l1 a l2 heq d hd
    rcases l2.eq_nil_or_concat with h2 | ⟨l2', c, h2⟩
    · subst h2
      obtain ⟨h3, h4⟩ := List.append_inj' heq rfl
      obtain rfl : b = a := by simpa using h4
      subst h3
      exact hdeps d hd
    · subst h2
      have heq' : res ++ [b] = (l1 ++ a :: l2') ++ [c] := by
        simpa using heq
      obtain ⟨h3, h4⟩ := List.append_inj' heq' rfl
      exact ih l1 a l2' h3 d hd

/-- Number of graph nodes not yet visited: the fuel bound for the
depth-first traversals. -/
def unvisitedCount (g : Graph) (vis : List String) : Nat :=
  (g.filter (fun n => n.provides ∉ vis)).length

theorem length_filter_mono {α : Type} {p q : α → Bool} (l : List α)
    (h : ∀ a, p a = true → q a = true) :
    (l.filter p).length ≤ (l.filter q).length :=
  (List.monotone_filter_right l h).length_le

theorem length_filter_lt {α : Type} {p q : α → Bool} {l : List α}
    (h : ∀ a, p a = true → q a = true) {a : α} (ha : a ∈ l)
    (hq : q a = true) (hp : p a = false) :
    (l.filter p).length < (l.filter q).length := by
  have hsub := List.monotone_filter_right l h
  rcases Nat.lt_or_ge (l.filter p).length (l.filter q).length with hlt | hge
  · exact hlt
  · exfalso
    have heq := hsub.eq_of_length (Nat.le_antisymm hsub.length_le hge)
    have haq : a ∈ l.filter q := List.mem_filter.mpr ⟨ha, hq⟩
    rw [← heq] at haq
    have := (List.mem_filter.mp haq).2
    rw [hp] at this
    exact Bool.false_ne_true this

theorem unvisitedCount_mono {g : Graph} {vis vis' : List String}
    (h : ∀ x ∈ vis, x ∈ vis') : unvisitedCount g vis' ≤ unvisitedCount g vis := by
  apply length_filter_mono
  intro m hm
  simp only [decide_eq_true_eq] at hm ⊢
  intro hmem
  exact hm (h _ hmem)

theorem unvisitedCount_lt {g : Graph} {vis : List String} {key : String}
    {m : DataBuilderMeta} (hf : findNode g key = some m) (hk : key ∉ vis) :
    unvisitedCount g (key :: vis) < unvisitedCount g vis := by
  obtain ⟨hmem, hprov⟩ := findNode_eq_some hf
  apply length_filter_lt (a := m) _ hmem
  · simp [hprov, hk]
  · simp [hprov]
  · intro n hn
    simp only [decide_eq_true_eq] at hn ⊢
    intro hmem'
    exact hn (List.mem_cons_of_mem _ hmem')

theorem unvisitedCount_pos {g : Graph} {vis : List String} {key : String}
    {m : DataBuilderMeta} (hf : findNode g key = some m) (hk : key ∉ vis) :
    0 < unvisitedCount g vis := by
  obtain ⟨hmem, hprov⟩ := findNode_eq_some hf
  have : m ∈ g.filter (fun n => n.provides ∉ vis) :=
    List.mem_filter.mpr ⟨hmem, by simp [hprov, hk]⟩
  exact List.length_pos.mpr (List.ne_nil_of_mem this)

theorem visitNode_mem {g : Graph} {fuel : Nat} {key : String}
    {vis res : List String} (h : key ∈ vis) :
    visitNode g fuel key (vis, res) = (vis, res) := by
  rw [visitNode.eq_def]
  exact if_pos h

theorem visitNode_none {g : Graph} {fuel : Nat} {key : String}
    {vis res : List String} (h : key ∉ vis) (hf : findNode g key = none) :
    visitNode g fuel key (vis, res) = (vis, res) := by
  rw [visitNode.eq_def]
  refine (if_neg h).trans ?_
  rw [hf]

theorem visitNode_zero {g : Graph} {key : String} {st : List String × List String} :
    visitNode g 0 key st = st := by
  obtain ⟨vis, res⟩ := st
  rw [visitNode.eq_def]
  by_cases h : key ∈ vis
  · exact if_pos h
  · refine (if_neg h).trans ?_
    cases findNode g key <;> rfl

theorem visitNode_some {g : Graph} {fuel' : Nat} {key : String}
    {vis res : List String} {m : DataBuilderMeta} (h : key ∉ vis)
    (hf : findNode g key = some m) :
    visitNode g (fuel' + 1) key (vis, res) =
      ((visitList g fuel' (depsOf g m) (key :: vis, res)).1,
       (visitList g fuel' (depsOf g m) (key :: vis, res)).2 ++ [key]) := by
  rw [visitNode.eq_def]
  refine (if_neg h).trans ?_
  rw [hf]
  rfl

theorem visitList_nil {g : Graph} {fuel : Nat} {st : List String × List String} :
    visitList g fuel [] st = st := rfl

theorem visitList_cons {g : Graph} {fuel : Nat} {key : String}
    {rest : List String} {st : List String × List String} :
    visitList g fuel (key :: rest) st =
      visitList g fuel rest (visitNode g fuel key st) := rfl

theorem visitList_zero {g : Graph} {todo : List String}
    {st : List String × List String} : visitList g 0 todo st = st := by
  induction todo generalizing st with
  | nil => rfl
  | cons key rest ih => rw [visitList_cons, visitNode_zero, ih]

theorem unvisitedCount_zero_mem {g : Graph} {vis : List String}
    (h : unvisitedCount g vis = 0) {key : String} {m : DataBuilderMeta}
    (hf : findNode g key = some m) : key ∈ vis := by
  by_contra hk
  have := unvisitedCount_pos hf hk
  omega

theorem visitList_spec (g : Graph) (hacyc : Acyclic g) :
    ∀ (fuel : Nat) (todo vis res : List String),
    unvisitedCount g vis ≤ fuel →
    (∀ x ∈ res, x ∈ vis) →
    TopoSorted g res →
    (∀ x ∈ vis, x ∉ res → ∀ t ∈ todo, Relation.TransGen (edgeTo g) x t) →
    (∀ x ∈ vis, x ∈ (visitList g fuel todo (vis, res)).1) ∧
    (∃ new, (visitList g fuel todo (vis, res)).2 = res ++ new ∧
      ∀ x ∈ new, x ∉ vis) ∧
    (∀ x, x ∈ (visitList g fuel todo (vis, res)).1 ↔
      (x ∈ vis ∨ x ∈ (visitList g fuel todo (vis, res)).2)) ∧
    (∀ t ∈ todo, (findNode g t).isSome → t ∈ (visitList g fuel todo (vis, res)).2) ∧
    TopoSorted g (visitList g fuel todo (vis, res)).2 := by
  intro fuel
  induction fuel with
  | zero =>
    intro todo vis res h1 h2 h3 h4
    rw [visitList_zero]
    have hcnt : unvisitedCount g vis = 0 := Nat.le_zero.mp h1
    refine ⟨fun x hx => hx, ⟨[], by simp, by simp⟩, ?_, ?_, h3⟩
    · intro x
      exact ⟨Or.inl, fun hx => hx.elim id (h2 x)⟩
    · intro t ht hsome
      obtain ⟨m, hm⟩ := Option.isSome_iff_exists.mp hsome
      have htv : t ∈ vis := unvisitedCount_zero_mem hcnt hm
      by_contra htr
      exact hacyc ⟨t, h4 t htv htr t ht⟩
  | succ f ihf =>
    intro todo
    induction todo with
    | nil =>
      intro vis res _h1 h2 h3 _h4
      rw [visitList_nil]
      refine ⟨fun x hx => hx, ⟨[], by simp, by simp⟩, ?_, by simp, h3⟩
      intro x
      exact ⟨Or.inl, fun hx => hx.elim id (h2 x)⟩
    | cons key rest ihrest =>
      intro vis res h1 h2 h3 h4
      rw [visitList_cons]
      have h4rest : ∀ x ∈ vis, x ∉ res → ∀ t ∈ rest,
          Relation.TransGen (edgeTo g) x t :=
        fun x hx hxr t ht => h4 x hx hxr t (List.mem_cons_of_mem _ ht)
      by_cases hk : key ∈ vis
      · rw [visitNode_mem hk]
        obtain ⟨i1, ⟨new, hnew, hnewv⟩, i3, i4, i5⟩ := ihrest vis res h1 h2 h3 h4rest
        have hkres : key ∈ res := by
          by_contra hkr
          exact hacyc ⟨key, h4 key hk hkr key (List.mem_cons_self _ _)⟩
        refine ⟨i1, ⟨new, hnew, hnewv⟩, i3, ?_, i5⟩
        intro t ht hsome
        rcases List.mem_cons.mp ht with rfl | ht2
        · rw [hnew]
          exact List.mem_append_left _ hkres
        · exact i4 t ht2 hsome
      · cases hf : findNode g key with
        | none =>
          rw [visitNode_none hk hf]
          obtain ⟨i1, i2, i3, i4, i5⟩ := ihrest vis res h1 h2 h3 h4rest
          refine ⟨i1, i2, i3, ?_, i5⟩
          intro t ht hsome
          rcases List.mem_cons.mp ht with rfl | ht2
          · rw [hf] at hsome
            simp at hsome
          · exact i4 t ht2 hsome
        | some m =>
          rw [visitNode_some hk hf]
          have hcnt : unvisitedCount g (key :: vis) ≤ f := by
            have hlt := unvisitedCount_lt hf hk
            omega
          have h2' : ∀ x ∈ res, x ∈ key :: vis :=
            fun x hx => List.mem_cons_of_mem _ (h2 x hx)
          have h4' : ∀ x ∈ key :: vis, x ∉ res → ∀ t ∈ depsOf g m,
              Relation.TransGen (edgeTo g) x t := by
            intro x hx hxr t ht
            rcases List.mem_cons.mp hx with rfl | hxv
            · exact Relation.TransGen.single (edgeTo_of_findNode hf ht)
            · exact (h4 x hxv hxr key (List.mem_cons_self _ _)).tail
                (edgeTo_of_findNode hf ht)
          obtain ⟨i1, ⟨new1, hnew1, hnew1v⟩, i3, i4, i5⟩ :=
            ihf (depsOf g m) (key :: vis) res hcnt h2' h3 h4'
          have hkP1 : key ∈ (visitList g f (depsOf g m) (key :: vis, res)).1 :=
            i1 key (List.mem_cons_self _ _)
          have hvisP1 : ∀ x ∈ vis,
              x ∈ (visitList g f (depsOf g m) (key :: vis, res)).1 :=
            fun x hx => i1 x (List.mem_cons_of_mem _ hx)
          have hresP2 : ∀ x ∈ res,
              x ∈ (visitList g f (depsOf g m) (key :: vis, res)).2 := by
            rw [hnew1]
            exact fun x hx => List.mem_append_left _ hx
          have hP2P1 : ∀ x ∈ (visitList g f (depsOf g m) (key :: vis, res)).2,
              x ∈ (visitList g f (depsOf g m) (key :: vis, res)).1 :=
            fun x hx => (i3 x).mpr (Or.inr hx)
          have hkeyP2 : key ∉ (visitList g f (depsOf g m) (key :: vis, res)).2 := by
            rw [hnew1]
            intro hcon
            rcases List.mem_append.mp hcon with hc | hc
            · exact hk (h2 key hc)
            · exact hnew1v key hc (List.mem_cons_self _ _)
          have hdeps : ∀ d, edgeTo g key d →
              d ∈ (visitList g f (depsOf g m) (key :: vis, res)).2 := by
            intro d hd
            have hd2 : d ∈ depsOf g m := by
              unfold edgeTo depsOfKey at hd
              rw [hf] at hd
              exact hd
            exact i4 d hd2 (mem_depsOf_isSome hd2)
          have hTopo1 : TopoSorted g
              ((visitList g f (depsOf g m) (key :: vis, res)).2 ++ [key]) :=
            i5.snoc hkeyP2 hdeps
          have hcnt2 :
              unvisitedCount g (visitList g f (depsOf g m) (key :: vis, res)).1 ≤
                f + 1 :=
            le_trans (unvisitedCount_mono hvisP1) h1
          have h2x : ∀ x ∈ (visitList g f (depsOf g m) (key :: vis, res)).2 ++ [key],
              x ∈ (visitList g f (depsOf g m) (key :: vis, res)).1 := by
            intro x hx
            rcases List.mem_append.mp hx with hc | hc
            · exact hP2P1 x hc
            · rw [List.mem_singleton] at hc
              subst hc
              exact hkP1
          have h4x : ∀ x ∈ (visitList g f (depsOf g m) (key :: vis, res)).1,
              x ∉ (visitList g f (depsOf g m) (key :: vis, res)).2 ++ [key] →
              ∀ t ∈ rest, Relation.TransGen (edgeTo g) x t := by
            intro x hx hxr t ht
            have hxP2 : x ∉ (visitList g f (depsOf g m) (key :: vis, res)).2 :=
              fun hc => hxr (List.mem_append_left _ hc)
            have hxk : x ≠ key := by
              intro hxk
              subst hxk
              exact hxr (List.mem_append_right _ (List.mem_singleton_self _))
            have hxv : x ∈ vis := by
              rcases (i3 x).mp hx with hc | hc
              · rcases List.mem_cons.mp hc with rfl | hcv
                · exact absurd rfl hxk
                · exact hcv
              · exact absurd hc hxP2
            have hxres : x ∉ res := fun hc => hxP2 (hresP2 x hc)
            exact h4 x hxv hxres t (List.mem_cons_of_mem _ ht)
          obtain ⟨j1, ⟨new2, hnew2, hnew2v⟩, j3, j4, j5⟩ :=
            ihrest (visitList g f (depsOf g m) (key :: vis, res)).1
              ((visitList g f (depsOf g m) (key :: vis, res)).2 ++ [key])
              hcnt2 h2x hTopo1 h4x
          have hkQ2 : key ∈ (visitList g (f + 1) rest
              ((visitList g f (depsOf g m) (key :: vis, res)).1,
               (visitList g f (depsOf g m) (key :: vis, res)).2 ++ [key])).2 := by
            rw [hnew2]
            exact List.mem_append_left _
              (List.mem_append_right _ (List.mem_singleton_self _))
          have hP2Q2 : ∀ x ∈ (visitList g f (depsOf g m) (key :: vis, res)).2,
              x ∈ (visitList g (f + 1) rest
                ((visitList g f (depsOf g m) (key :: vis, res)).1,
                 (visitList g f (depsOf g m) (key :: vis, res)).2 ++ [key])).2 := by
            rw [hnew2]
            exact fun x hx => List.mem_append_left _ (List.mem_append_left _ hx)
          refine ⟨?_, ?_, ?_, ?_, j5⟩
          · exact fun x hx => j1 x (hvisP1 x hx)
          · refine ⟨new1 ++ key :: new2, ?_, ?_⟩
            · rw [hnew2, hnew1]
              simp
            · intro x hx
              rcases List.mem_append.mp hx with hc | hc
              · exact fun hxv => hnew1v x hc (List.mem_cons_of_mem _ hxv)
              · rcases List.mem_cons.mp hc with rfl | hc2
                · exact hk
                · exact fun hxv => hnew2v x hc2 (hvisP1 x hxv)
          · intro x
            constructor
            · intro hx
              rcases (j3 x).mp hx with hc | hc
              · rcases (i3 x).mp hc with hc2 | hc2
                · rcases List.mem_cons.mp hc2 with rfl | hc3
                  · exact Or.inr hkQ2
                  · exact Or.inl hc3
                · exact Or.inr (hP2Q2 x hc2)
              · exact Or.inr hc
            · rintro (hx | hx)
              · exact j1 x (hvisP1 x hx)
              · exact (j3 x).mpr (Or.inr hx)
          · intro t ht hsome
            rcases List.mem_cons.mp ht with rfl | ht2
            · exact hkQ2
            · exact j4 t ht2 hsome

theorem getExecutionOrder_TopoSorted {g : Graph} (hacyc : Acyclic g)
    (targets : List String) : TopoSorted g (getExecutionOrder g targets) := by
  unfold getExecutionOrder
  refine (visitList_spec g hacyc g.length targets [] [] ?_ (by simp)
    TopoSorted.nil (by simp)).2.2.2.2
  unfold unvisitedCount
  exact List.length_filter_le _ _

theorem acyclic_of_rank (g : Graph) (rank : String → Nat)
    (hrank : ∀ a d, edgeTo g a d → rank d < rank a) : Acyclic g := by
  rintro ⟨k, hk⟩
  have hmono : ∀ x y, Relation.TransGen (edgeTo g) x y → rank y < rank x := by
    intro x y h
    induction h with
    | single h1 => exact hrank _ _ h1
    | tail _ h1 ih => exact lt_trans (hrank _ _ h1) ih
  exact lt_irrefl _ (hmono k k hk)

/-- Example builder set used by the witnesses: `A` (no inputs),
`B` (consumes `A`), `C` (consumes `A` and `B`). -/
def exMetas : List DataBuilderMeta :=
  [⟨"BuilderA", "A", []⟩, ⟨"BuilderB", "B", ["A"]⟩, ⟨"BuilderC", "C", ["A", "B"]⟩]

theorem exMetas_acyclic : Acyclic (buildDependencyGraph exMetas) := by
  apply acyclic_of_rank _ (fun s => if s = "A" then 0 else if s = "B" then 1 else 2)
  intro a d h
  obtain ⟨m, hm, hprov, hd⟩ := edgeTo_mem h
  subst hprov
  have hm2 : m = ⟨"BuilderA", "A", []⟩ ∨ m = ⟨"BuilderB", "B", ["A"]⟩ ∨
      m = ⟨"BuilderC", "C", ["A", "B"]⟩ := by
    have : buildDependencyGraph exMetas = exMetas := by decide
    rw [this] at hm
    simpa [exMetas] using hm
  rcases hm2 with rfl | rfl | rfl
  · have hde : depsOf (buildDependencyGraph exMetas) ⟨"BuilderA", "A", []⟩ = [] := by
      decide
    rw [hde] at hd
    simp at hd
  · have hde : depsOf (buildDependencyGraph exMetas) ⟨"BuilderB", "B", ["A"]⟩ =
        ["A"] := by decide
    rw [hde] at hd
    rw [List.mem_singleton] at hd
    subst hd
    decide
  · have hde : depsOf (buildDependencyGraph exMetas)
        ⟨"BuilderC", "C", ["A", "B"]⟩ = ["A", "B"] := by decide
    rw [hde] at hd
    rcases List.mem_cons.mp hd with rfl | hd2
    · decide
    · rw [List.mem_singleton] at hd2
      subst hd2
      decide

/-- C1: for every builder set whose dependency graph is acyclic and every
list of target types (repetitions and overlapping ancestor chains allowed),
`DependencyGraph.getExecutionOrder(targets)` returns a sequence with no
duplicate nodes in which every dependency of a returned node appears
earlier in the sequence than that node. -/
theorem C1_getExecutionOrder_topological (ms : List DataBuilderMeta) (targets : List String)
    (hacyc : Acyclic (buildDependencyGraph ms)) :
    (getExecutionOrder (buildDependencyGraph ms) targets).Nodup ∧
    ∀ l1 a l2, getExecutionOrder (buildDependencyGraph ms) targets = l1 ++ a :: l2 →
      ∀ d, edgeTo (buildDependencyGraph ms) a d → d ∈ l1 := by
  have h := getExecutionOrder_TopoSorted hacyc targets
  exact ⟨h.nodup, h.deps_before⟩

/-- Witness for C1: the three-builder example graph, with targets
containing a repetition and overlapping ancestor chains. -/
theorem C1_getExecutionOrder_topological_witness :
    Acyclic (buildDependencyGraph exMetas) ∧
    ((getExecutionOrder (buildDependencyGraph exMetas) ["C", "B", "C"]).Nodup ∧
    ∀ l1 a l2, getExecutionOrder (buildDependencyGraph exMetas) ["C", "B", "C"] =
        l1 ++ a :: l2 →
      ∀ d, edgeTo (buildDependencyGraph exMetas) a d → d ∈ l1) :=
  ⟨exMetas_acyclic,
    C1_getExecutionOrder_topological exMetas ["C", "B", "C"] exMetas_acyclic⟩

/-- The trace string pushed by `detectCycles` on a recursion-stack hit:
`Cycle detected: ${path.join(' -> ')} -> ${nodeKey}`. -/
def cycleMsg (path : List String) (key : String) : String :=
  "Cycle detected: " ++ String.intercalate " -> " path ++ " -> " ++ key

/-- State threaded through `detectCycles`: the `visited` set, the
`recursionStack` set, and the accumulated `cycles` messages. -/
structure DfsState where
  visited : List String
  stack : List String
  cycles : List String
deriving Repr, DecidableEq

/-- The inner `dfs` of `DependencyGraph.detectCycles`.  Returns the boolean
result together with the updated state.  On a stack hit a trace is pushed
and `true` is returned; a `true` result propagates without popping the
stack entry (as in the source, where `return true` skips
`recursionStack.delete`).  Fuel is consumed per freshly entered node with
a graph entry; `detectCycles` supplies one unit per node. -/
def dfsNode (g : Graph) : Nat → String → List String → DfsState → Bool × DfsState
  | fuel, key, path, st =>
    if key ∈ st.stack then
      (true, { st with cycles := st.cycles ++ [cycleMsg path key] })
    else if key ∈ st.visited then (false, st)
    else
      match findNode g key with
      | none => (false, { st with visited := key :: st.visited })
      | some m =>
        match fuel with
        | 0 => (false, st)
        | fuel' + 1 =>
          let r := (depsOf g m).foldl
            (fun acc d => if acc.1 then acc else dfsNode g fuel' d (path ++ [key]) acc.2)
            (false, ⟨key :: st.visited, key :: st.stack, st.cycles⟩)
          if r.1 then r
          else (false, ⟨r.2.visited, r.2.stack.erase key, r.2.cycles⟩)

/-- The `for` loop of `dfs` over a node's dependencies: short-circuits
(state frozen) once a call has returned `true`. -/
def dfsList (g : Graph) (fuel : Nat) (todo : List String) (path : List String)
    (acc : Bool × DfsState) : Bool × DfsState :=
  todo.foldl (fun a d => if a.1 then a else dfsNode g fuel d path a.2) acc

/-- `DependencyGraph.detectCycles()`: depth-first search from every
unvisited node key, collecting human-readable cycle traces.  The boolean
results are discarded by the top-level loop, as in the source. -/
def detectCycles (g : Graph) : List String :=
  (g.foldl
    (fun st m =>
      if m.provides ∈ st.visited then st
      else (dfsNode g g.length m.provides [] st).2)
    ⟨[], [], []⟩).cycles

/-- The inner `checkDependencies` of
`DependencyGraph.findMissingDependencies`: mark the key visited; a key
with no node is recorded as missing; otherwise recurse into its raw
`consumes` list.  State: `(visited, missing)`. -/
def checkMissingNode (g : Graph) : Nat → String → List String × List String →
    List String × List String
  | fuel, key, (v, mi) =>
    if key ∈ v then (v, mi)
    else
      match findNode g key with
      | none => (key :: v, mi ++ [key])
      | some m =>
        match fuel with
        | 0 => (key :: v, mi)
        | fuel' + 1 =>
          m.consumes.foldl (fun st c => checkMissingNode g fuel' c st) (key :: v, mi)

/-- `DependencyGraph.findMissingDependencies(targetTypes)`. -/
def findMissingDependencies (g : Graph) (targetTypes : List String) : List String :=
  (targetTypes.foldl (fun st t => checkMissingNode g g.length t st) ([], [])).2

/-- One pass of `ExecutionPlanner.calculateParallelLevels`'s inner `for`
loop: the keys of `executionOrder` not yet processed whose dependencies
are all processed, in `executionOrder` order. -/
def levelStep (g : Graph) (order processed : List String) : List String :=
  order.filter (fun k =>
    decide (k ∉ processed) && (depsOfKey g k).all (fun d => decide (d ∈ processed)))

/-- The `while (remaining.size > 0)` loop of `calculateParallelLevels`,
with its defensive break when a pass places no node.  Each pass places at
least one node, so one fuel unit per entry of `executionOrder` suffices. -/
def calcLevelsGo (g : Graph) (order : List String) : Nat → List String →
    List (List String)
  | 0, _ => []
  | fuel + 1, processed =>
    if order.filter (fun k => decide (k ∉ processed)) = [] then []
    else
      let currentLevel := levelStep g order processed
      if currentLevel = [] then []
      else currentLevel :: calcLevelsGo g order fuel (processed ++ currentLevel)

/-- `ExecutionPlanner.calculateParallelLevels(executionOrder)`. -/
def calculateParallelLevels (g : Graph) (order : List String) :
    List (List String) :=
  calcLevelsGo g order order.length []

/-- `ExecutionPlan` (src `ExecutionPlanner.ts`). -/
structure ExecutionPlan where
  executionOrder : List String
  parallelExecutionLevels : List (List String)
  missingBuilders : List String
  cycles : List String
  isValid : Bool
  totalBuilders : Nat
  maxConcurrency : Nat
  dependencyGraph : Graph
deriving Repr

/-- `ExecutionPlanner.createExecutionPlan(targetData)`, with the registry
metadata list `ms` as explicit input (the planner reads it through
`builderRegistry.getAllMetadata()`). -/
def createExecutionPlan (ms : List DataBuilderMeta) (targetData : List String) :
    ExecutionPlan :=
  let dependencyGraph := buildDependencyGraph ms
  let cycles := detectCycles dependencyGraph
  let missingBuilders := findMissingDependencies dependencyGraph targetData
  let isValid := cycles.isEmpty && missingBuilders.isEmpty
  if isValid then
    let executionOrder := getExecutionOrder dependencyGraph targetData
    let parallelExecutionLevels :=
      calculateParallelLevels dependencyGraph executionOrder
    { executionOrder := executionOrder
      parallelExecutionLevels := parallelExecutionLevels
      missingBuilders := missingBuilders
      cycles := cycles
      isValid := isValid
      totalBuilders := executionOrder.length
      maxConcurrency :=
        if parallelExecutionLevels.length > 0 then
          (parallelExecutionLevels.map List.length).foldl max 0
        else 0
      dependencyGraph := dependencyGraph }
  else
    { executionOrder := []
      parallelExecutionLevels := []
      missingBuilders := missingBuilders
      cycles := cycles
      isValid := isValid
      totalBuilders := 0
      maxConcurrency := 0
      dependencyGraph := dependencyGraph }

/-- The planning error taxonomy (src `ExecutionPlanner.ts`):
`CircularDependencyError` carries the cycle traces, `MissingBuilderError`
the unresolvable type names. -/
inductive PlanningError where
  | circularDependencyError (cycles : List String)
  | missingBuilderError (missingTypes : List String)
deriving Repr, DecidableEq

/-- `ExecutionPlanner.validateExecutionPlan(plan)`: throwing is modelled
with `Except`; the function reads the plan and touches nothing else. -/
def validateExecutionPlan (plan : ExecutionPlan) : Except PlanningError Unit :=
  if plan.cycles.length > 0 then
    .error (.circularDependencyError plan.cycles)
  else if plan.missingBuilders.length > 0 then
    .error (.missingBuilderError plan.missingBuilders)
  else .ok ()

/-- Two-builder cycle used by witnesses: `X` consumes `Y`, `Y` consumes `X`. -/
def cycMetas : List DataBuilderMeta :=
  [⟨"BuilderX", "X", ["Y"]⟩, ⟨"BuilderY", "Y", ["X"]⟩]

/-- C3: whenever the plan returned by `createExecutionPlan` has
`isValid = false`, its `executionOrder` and `parallelExecutionLevels` are
empty and `totalBuilders` and `maxConcurrency` are zero. -/
theorem C3_invalid_plan_empty (ms : List DataBuilderMeta) (targetData : List String)
    (h : (createExecutionPlan ms targetData).isValid = false) :
    (createExecutionPlan ms targetData).executionOrder = [] ∧
    (createExecutionPlan ms targetData).parallelExecutionLevels = [] ∧
    (createExecutionPlan ms targetData).totalBuilders = 0 ∧
    (createExecutionPlan ms targetData).maxConcurrency = 0 := by
  by_cases hb : ((detectCycles (buildDependencyGraph ms)).isEmpty &&
      (findMissingDependencies (buildDependencyGraph ms) targetData).isEmpty) = true
  · exfalso
    unfold createExecutionPlan at h
    simp only [hb, if_true] at h
    simp at h
  · unfold createExecutionPlan
    simp only [Bool.not_eq_true] at hb
    simp [hb]

/-- Witness for C3: the two-builder cycle yields an invalid plan with
empty order, empty levels and zero counts. -/
theorem C3_invalid_plan_empty_witness :
    (createExecutionPlan cycMetas ["X"]).isValid = false ∧
    ((createExecutionPlan cycMetas ["X"]).executionOrder = [] ∧
     (createExecutionPlan cycMetas ["X"]).parallelExecutionLevels = [] ∧
     (createExecutionPlan cycMetas ["X"]).totalBuilders = 0 ∧
     (createExecutionPlan cycMetas ["X"]).maxConcurrency = 0) :=
  ⟨by decide, C3_invalid_plan_empty cycMetas ["X"] (by decide)⟩

/-- C6: `validateExecutionPlan` is a pure gate (in this embedding it is a
function of the plan alone, so it can change no state): it fails with
`CircularDependencyError` carrying the trace list whenever `plan.cycles`
is non-empty, otherwise with `MissingBuilderError` carrying the missing
type names whenever `plan.missingBuilders` is non-empty, and otherwise
returns normally. -/
theorem C6_validateExecutionPlan_gate (plan : ExecutionPlan) :
    (plan.cycles ≠ [] →
      validateExecutionPlan plan =
        .error (.circularDependencyError plan.cycles)) ∧
    (plan.cycles = [] → plan.missingBuilders ≠ [] →
      validateExecutionPlan plan =
        .error (.missingBuilderError plan.missingBuilders)) ∧
    (plan.cycles = [] → plan.missingBuilders = [] →
      validateExecutionPlan plan = .ok ()) := by
  unfold validateExecutionPlan
  refine ⟨?_, ?_, ?_⟩
  · intro h1
    rw [if_pos]
    exact List.length_pos.mpr h1
  · intro h1 h2
    rw [if_neg, if_pos]
    · exact List.length_pos.mpr h2
    · simp [h1]
  · intro h1 h2
    rw [if_neg, if_neg]
    · simp [h2]
    · simp [h1]

/-- Witness for C6: the three gate outcomes on three concrete plans. -/
theorem C6_validateExecutionPlan_gate_witness :
    ((createExecutionPlan cycMetas ["X"]).cycles ≠ [] ∧
      validateExecutionPlan (createExecutionPlan cycMetas ["X"]) =
        .error (.circularDependencyError (createExecutionPlan cycMetas ["X"]).cycles)) ∧
    ((createExecutionPlan exMetas ["Z"]).cycles = [] ∧
      (createExecutionPlan exMetas ["Z"]).missingBuilders ≠ [] ∧
      validateExecutionPlan (createExecutionPlan exMetas ["Z"]) =
        .error (.missingBuilderError (createExecutionPlan exMetas ["Z"]).missingBuilders)) ∧
    ((createExecutionPlan exMetas ["C"]).cycles = [] ∧
      (createExecutionPlan exMetas ["C"]).missingBuilders = [] ∧
      validateExecutionPlan (createExecutionPlan exMetas ["C"]) = .ok ()) :=
  ⟨⟨by decide, (C6_validateExecutionPlan_gate _).1 (by decide)⟩,
   ⟨by decide, by decide,
     (C6_validateExecutionPlan_gate _).2.1 (by decide) (by decide)⟩,
   ⟨by decide, by decide,
     (C6_validateExecutionPlan_gate _).2.2 (by decide) (by decide)⟩⟩

/-- `ExecutionPlanner.calculateConcurrencyVariance(parallelLevels)`:
`0` for at most one level, otherwise the coefficient of variation
`sqrt(variance) / mean` of the level sizes (JavaScript `number` arithmetic
modelled over the reals). -/
noncomputable def calculateConcurrencyVariance
    (parallelLevels : List (List String)) : ℝ :=
  if parallelLevels.length ≤ 1 then 0
  else
    let concurrencies : List ℝ := parallelLevels.map (fun level => (level.length : ℝ))
    let mean := concurrencies.sum / (concurrencies.length : ℝ)
    let variance :=
      (concurrencies.map (fun c => (c - mean) ^ 2)).sum / (concurrencies.length : ℝ)
    Real.sqrt variance / mean

/-- The record returned by `ExecutionPlanner.getExecutionPlanStats`. -/
structure ExecutionPlanStats where
  sequentialEstimate : Nat
  parallelLevels : Nat
  averageConcurrency : ℝ
  dependencyDepth : Nat
  complexityScore : ℝ

/-- `ExecutionPlanner.getExecutionPlanStats(plan)`. -/
noncomputable def getExecutionPlanStats (plan : ExecutionPlan) : ExecutionPlanStats :=
  if !plan.isValid then ⟨0, 0, 0, 0, 0⟩
  else
    let parallelLevels := plan.parallelExecutionLevels.length
    let totalBuilders := plan.totalBuilders
    let averageConcurrency : ℝ :=
      if totalBuilders > 0 then (totalBuilders : ℝ) / (parallelLevels : ℝ) else 0
    let dependencyDepth := parallelLevels
    let concurrencyVariance :=
      calculateConcurrencyVariance plan.parallelExecutionLevels
    let complexityScore :=
      (totalBuilders : ℝ) * (dependencyDepth : ℝ) * (1 + concurrencyVariance)
    ⟨totalBuilders, parallelLevels, averageConcurrency, dependencyDepth,
      complexityScore⟩

/-- The coefficient of variation of a list of sizes, written from the
claim's words (`sqrt(variance) / mean`, no small-list guard), to compare
with `calculateConcurrencyVariance`. -/
noncomputable def specCoefficientOfVariation (sizes : List Nat) : ℝ :=
  let mean := (sizes.map (fun (n : Nat) => (n : ℝ))).sum / (sizes.length : ℝ)
  let variance :=
    (sizes.map (fun (n : Nat) => ((n : ℝ) - mean) ^ 2)).sum / (sizes.length : ℝ)
  Real.sqrt variance / mean

theorem calculateConcurrencyVariance_eq (parallelLevels : List (List String)) :
    calculateConcurrencyVariance parallelLevels =
      specCoefficientOfVariation (parallelLevels.map List.length) := by
  unfold calculateConcurrencyVariance specCoefficientOfVariation
  by_cases h : parallelLevels.length ≤ 1
  · rw [if_pos h]
    match parallelLevels, h with
    | [], _ => simp
    | [l], _ =>
      simp [Real.sqrt_zero]
  · rw [if_neg h]
    simp only [List.map_map, List.length_map, Function.comp_def]

theorem createExecutionPlan_totalBuilders (ms : List DataBuilderMeta)
    (targetData : List String)
    (h : (createExecutionPlan ms targetData).isValid = true) :
    (createExecutionPlan ms targetData).totalBuilders =
      (createExecutionPlan ms targetData).executionOrder.length := by
  by_cases hb : ((detectCycles (buildDependencyGraph ms)).isEmpty &&
      (findMissingDependencies (buildDependencyGraph ms) targetData).isEmpty) = true
  · unfold createExecutionPlan
    simp [hb]
  · exfalso
    unfold createExecutionPlan at h
    simp only [Bool.not_eq_true] at hb
    simp [hb] at h

/-- C8: for a valid plan, `getExecutionPlanStats` returns
`sequentialEstimate = |executionOrder|`,
`averageConcurrency = totalBuilders / #levels` and
`complexityScore = totalBuilders * #levels * (1 + CV(level sizes))`;
for an invalid plan every statistic is zero. -/
theorem C8_getExecutionPlanStats (ms : List DataBuilderMeta)
    (targetData : List String) :
    ((createExecutionPlan ms targetData).isValid = true →
      (getExecutionPlanStats (createExecutionPlan ms targetData)).sequentialEstimate =
        (createExecutionPlan ms targetData).executionOrder.length ∧
      (getExecutionPlanStats (createExecutionPlan ms targetData)).averageConcurrency =
        ((createExecutionPlan ms targetData).totalBuilders : ℝ) /
          ((createExecutionPlan ms targetData).parallelExecutionLevels.length : ℝ) ∧
      (getExecutionPlanStats (createExecutionPlan ms targetData)).complexityScore =
        ((createExecutionPlan ms targetData).totalBuilders : ℝ) *
          ((createExecutionPlan ms targetData).parallelExecutionLevels.length : ℝ) *
          (1 + specCoefficientOfVariation
            ((createExecutionPlan ms targetData).parallelExecutionLevels.map
              List.length))) ∧
    ((createExecutionPlan ms targetData).isValid = false →
      getExecutionPlanStats (createExecutionPlan ms targetData) = ⟨0, 0, 0, 0, 0⟩) := by
  constructor
  · intro h
    unfold getExecutionPlanStats
    simp only [h, Bool.not_true, Bool.false_eq_true, if_false]
    refine ⟨createExecutionPlan_totalBuilders ms targetData h, ?_, ?_⟩
    · by_cases hpos : (createExecutionPlan ms targetData).totalBuilders > 0
      · rw [if_pos hpos]
      · rw [if_neg hpos]
        have h0 : (createExecutionPlan ms targetData).totalBuilders = 0 := by omega
        rw [h0]
        simp
    · rw [calculateConcurrencyVariance_eq]
  · intro h
    unfold getExecutionPlanStats
    simp [h]

/-- Witness for C8: the three-builder valid plan and the cyclic invalid
plan. -/
theorem C8_getExecutionPlanStats_witness :
    ((createExecutionPlan exMetas ["C"]).isValid = true ∧
      (getExecutionPlanStats (createExecutionPlan exMetas ["C"])).sequentialEstimate =
        (createExecutionPlan exMetas ["C"]).executionOrder.length ∧
      (getExecutionPlanStats (createExecutionPlan exMetas ["C"])).averageConcurrency =
        ((createExecutionPlan exMetas ["C"]).totalBuilders : ℝ) /
          ((createExecutionPlan exMetas ["C"]).parallelExecutionLevels.length : ℝ) ∧
      (getExecutionPlanStats (createExecutionPlan exMetas ["C"])).complexityScore =
        ((createExecutionPlan exMetas ["C"]).totalBuilders : ℝ) *
          ((createExecutionPlan exMetas ["C"]).parallelExecutionLevels.length : ℝ) *
          (1 + specCoefficientOfVariation
            ((createExecutionPlan exMetas ["C"]).parallelExecutionLevels.map
              List.length))) ∧
    ((createExecutionPlan cycMetas ["X"]).isValid = false ∧
      getExecutionPlanStats (createExecutionPlan cycMetas ["X"]) = ⟨0, 0, 0, 0, 0⟩) :=
  ⟨⟨by decide, (C8_getExecutionPlanStats exMetas ["C"]).1 (by decide)⟩,
   ⟨by decide, (C8_getExecutionPlanStats cycMetas ["X"]).2 (by decide)⟩⟩

/-- A key is finished in a `detectCycles` state: visited and no longer on
the recursion stack. -/
def Finished (st : DfsState) (x : String) : Prop :=
  x ∈ st.visited ∧ x ∉ st.stack

/-- The invariant maintained by clean (no cycle reported) `detectCycles`
runs: every finished node has finished dependencies and lies on no
dependency cycle. -/
def DfsInv (g : Graph) (st : DfsState) : Prop :=
  ∀ x, Finished st x →
    (∀ d, edgeTo g x d → Finished st d) ∧ ¬ Relation.TransGen (edgeTo g) x x

theorem DfsInv.reach {g : Graph} {st : DfsState} (h : DfsInv g st) {x y : String}
    (hx : Finished st x) (hr : Relation.ReflTransGen (edgeTo g) x y) :
    Finished st y := by
  induction hr with
  | refl => exact hx
  | tail _hab hstep ih => exact (h _ ih).1 _ hstep

theorem dfsNode_stackHit {g : Graph} {fuel : Nat} {key : String}
    {path : List String} {st : DfsState} (h : key ∈ st.stack) :
    dfsNode g fuel key path st =
      (true, { st with cycles := st.cycles ++ [cycleMsg path key] }) := by
  rw [dfsNode]
  exact if_pos h

theorem dfsNode_visited {g : Graph} {fuel : Nat} {key : String}
    {path : List String} {st : DfsState} (h1 : key ∉ st.stack)
    (h2 : key ∈ st.visited) : dfsNode g fuel key path st = (false, st) := by
  rw [dfsNode]
  rw [if_neg h1, if_pos h2]

theorem dfsNode_missing {g : Graph} {fuel : Nat} {key : String}
    {path : List String} {st : DfsState} (h1 : key ∉ st.stack)
    (h2 : key ∉ st.visited) (hf : findNode g key = none) :
    dfsNode g fuel key path st = (false, { st with visited := key :: st.visited }) := by
  rw [dfsNode]
  refine ((if_neg h1).trans (if_neg h2)).trans ?_
  rw [hf]

theorem dfsNode_zero {g : Graph} {key : String} {path : List String}
    {st : DfsState} {m : DataBuilderMeta} (h1 : key ∉ st.stack)
    (h2 : key ∉ st.visited) (hf : findNode g key = some m) :
    dfsNode g 0 key path st = (false, st) := by
  rw [dfsNode]
  refine ((if_neg h1).trans (if_neg h2)).trans ?_
  rw [hf]

theorem dfsNode_some {g : Graph} {fuel' : Nat} {key : String}
    {path : List String} {st : DfsState} {m : DataBuilderMeta}
    (h1 : key ∉ st.stack) (h2 : key ∉ st.visited)
    (hf : findNode g key = some m) :
    dfsNode g (fuel' + 1) key path st =
      (if (dfsList g fuel' (depsOf g m) (path ++ [key])
            (false, ⟨key :: st.visited, key :: st.stack, st.cycles⟩)).1 then
        dfsList g fuel' (depsOf g m) (path ++ [key])
          (false, ⟨key :: st.visited, key :: st.stack, st.cycles⟩)
      else
        (false,
          ⟨(dfsList g fuel' (depsOf g m) (path ++ [key])
              (false, ⟨key :: st.visited, key :: st.stack, st.cycles⟩)).2.visited,
           (dfsList g fuel' (depsOf g m) (path ++ [key])
              (false, ⟨key :: st.visited, key :: st.stack, st.cycles⟩)).2.stack.erase key,
           (dfsList g fuel' (depsOf g m) (path ++ [key])
              (false, ⟨key :: st.visited, key :: st.stack, st.cycles⟩)).2.cycles⟩)) := by
  rw [dfsNode]
  refine ((if_neg h1).trans (if_neg h2)).trans ?_
  rw [hf]
  rfl

theorem dfsList_nil {g : Graph} {fuel : Nat} {path : List String}
    {acc : Bool × DfsState} : dfsList g fuel [] path acc = acc := rfl

theorem dfsList_cons {g : Graph} {fuel : Nat} {d : String} {rest path : List String}
    {acc : Bool × DfsState} :
    dfsList g fuel (d :: rest) path acc =
      dfsList g fuel rest path (if acc.1 then acc else dfsNode g fuel d path acc.2) :=
  rfl

theorem dfsList_true {g : Graph} {fuel : Nat} {todo path : List String}
    {st : DfsState} : dfsList g fuel todo path (true, st) = (true, st) := by
  induction todo with
  | nil => rfl
  | cons d rest ih =>
    rw [dfsList_cons]
    simpa using ih

theorem dfsList_cons_false {g : Graph} {fuel : Nat} {d : String}
    {rest path : List String} {st : DfsState} :
    dfsList g fuel (d :: rest) path (false, st) =
      dfsList g fuel rest path (dfsNode g fuel d path st) := by
  rw [dfsList_cons]
  rfl

/-- The cycles list only grows, and it grows exactly when `true` is
returned (statement for `dfsNode`). -/
def NodeCyclesMono (g : Graph) (fuel : Nat) : Prop :=
  ∀ (key : String) (path : List String) (st : DfsState),
    ∃ suf, (dfsNode g fuel key path st).2.cycles = st.cycles ++ suf ∧
      ((dfsNode g fuel key path st).1 = true ↔ suf ≠ [])

theorem dfsList_cycles_mono {g : Graph} {fuel : Nat}
    (hnode : NodeCyclesMono g fuel) :
    ∀ (todo path : List String) (b : Bool) (st : DfsState),
    ∃ suf, (dfsList g fuel todo path (b, st)).2.cycles = st.cycles ++ suf ∧
      ((dfsList g fuel todo path (b, st)).1 = true ↔ (b = true ∨ suf ≠ [])) := by
  intro todo
  induction todo with
  | nil =>
    intro path b st
    refine ⟨[], by simp [dfsList_nil], by simp [dfsList_nil]⟩
  | cons d rest ih =>
    intro path b st
    cases b with
    | true =>
      rw [dfsList_true]
      exact ⟨[], by simp, by simp⟩
    | false =>
      rw [dfsList_cons_false]
      obtain ⟨suf1, hc1, hb1⟩ := hnode d path st
      rcases hnd : dfsNode g fuel d path st with ⟨b1, st1⟩
      rw [hnd] at hc1 hb1
      simp only at hc1 hb1
      obtain ⟨suf2, hc2, hb2⟩ := ih path b1 st1
      refine ⟨suf1 ++ suf2, ?_, ?_⟩
      · rw [hc2, hc1, List.append_assoc]
      · rw [hb2, hb1]
        simp only [Bool.false_eq_true, false_or, ne_eq, List.append_eq_nil]
        tauto

theorem dfsNode_cycles_mono (g : Graph) : ∀ fuel, NodeCyclesMono g fuel := by
  intro fuel
  induction fuel with
  | zero =>
    intro key path st
    by_cases h1 : key ∈ st.stack
    · rw [dfsNode_stackHit h1]
      exact ⟨[cycleMsg path key], rfl, by simp⟩
    · by_cases h2 : key ∈ st.visited
      · rw [dfsNode_visited h1 h2]
        exact ⟨[], by simp, by simp⟩
      · cases hf : findNode g key with
        | none =>
          rw [dfsNode_missing h1 h2 hf]
          exact ⟨[], by simp, by simp⟩
        | some m =>
          rw [dfsNode_zero h1 h2 hf]
          exact ⟨[], by simp, by simp⟩
  | succ f ihf =>
    intro key path st
    by_cases h1 : key ∈ st.stack
    · rw [dfsNode_stackHit h1]
      exact ⟨[cycleMsg path key], rfl, by simp⟩
    · by_cases h2 : key ∈ st.visited
      · rw [dfsNode_visited h1 h2]
        exact ⟨[], by simp, by simp⟩
      · cases hf : findNode g key with
        | none =>
          rw [dfsNode_missing h1 h2 hf]
          exact ⟨[], by simp, by simp⟩
        | some m =>
          rw [dfsNode_some h1 h2 hf]
          obtain ⟨suf, hc, hb⟩ := dfsList_cycles_mono ihf (depsOf g m)
            (path ++ [key]) false ⟨key :: st.visited, key :: st.stack, st.cycles⟩
          by_cases hr : (dfsList g f (depsOf g m) (path ++ [key])
              (false, ⟨key :: st.visited, key :: st.stack, st.cycles⟩)).1 = true
          · rw [if_pos hr]
            refine ⟨suf, hc, ?_⟩
            constructor
            · intro _
              exact (hb.mp hr).resolve_left (by simp)
            · intro _
              exact hr
          · rw [if_neg hr]
            have hsuf : suf = [] := by
              by_contra hs
              exact hr (hb.mpr (Or.inr hs))
            refine ⟨[], ?_, by simp⟩
            show (dfsList g f (depsOf g m) (path ++ [key])
              (false, ⟨key :: st.visited, key :: st.stack, st.cycles⟩)).2.cycles =
                st.cycles ++ []
            rw [hc, hsuf]

/-- Specification of a clean (`false`-returning) `dfsNode` call: stack
restored, visited grows, no cycle message, the key finishes, and the
finished-set invariant is preserved. -/
def NodeSpecP (g : Graph) (fuel : Nat) : Prop :=
  ∀ (key : String) (path : List String) (st : DfsState),
    (findNode g key).isSome →
    (∀ x ∈ st.stack, x ∈ st.visited) →
    DfsInv g st →
    unvisitedCount g st.visited ≤ fuel →
    (dfsNode g fuel key path st).1 = false →
    ((dfsNode g fuel key path st).2.stack = st.stack ∧
     (∀ x ∈ st.visited, x ∈ (dfsNode g fuel key path st).2.visited) ∧
     (dfsNode g fuel key path st).2.cycles = st.cycles ∧
     Finished (dfsNode g fuel key path st).2 key ∧
     DfsInv g (dfsNode g fuel key path st).2 ∧
     (∀ x ∈ (dfsNode g fuel key path st).2.stack,
       x ∈ (dfsNode g fuel key path st).2.visited))

/-- Specification of a clean `dfsList` pass over a worklist. -/
def ListSpecP (g : Graph) (fuel : Nat) : Prop :=
  ∀ (todo path : List String) (st : DfsState),
    (∀ t ∈ todo, (findNode g t).isSome) →
    (∀ x ∈ st.stack, x ∈ st.visited) →
    DfsInv g st →
    unvisitedCount g st.visited ≤ fuel →
    (dfsList g fuel todo path (false, st)).1 = false →
    ((dfsList g fuel todo path (false, st)).2.stack = st.stack ∧
     (∀ x ∈ st.visited, x ∈ (dfsList g fuel todo path (false, st)).2.visited) ∧
     (dfsList g fuel todo path (false, st)).2.cycles = st.cycles ∧
     (∀ t ∈ todo, Finished (dfsList g fuel todo path (false, st)).2 t) ∧
     DfsInv g (dfsList g fuel todo path (false, st)).2 ∧
     (∀ x ∈ (dfsList g fuel todo path (false, st)).2.stack,
       x ∈ (dfsList g fuel todo path (false, st)).2.visited))

theorem listSpec_of_nodeSpec {g : Graph} {fuel : Nat}
    (hnode : NodeSpecP g fuel) : ListSpecP g fuel := by
  intro todo
  induction todo with
  | nil =>
    intro path st _h4 h3 h2 _h1 _hres
    rw [dfsList_nil]
    exact ⟨rfl, fun x hx => hx, rfl, by simp, h2, h3⟩
  | cons d rest ih =>
    intro path st h4 h3 h2 h1 hres
    rw [dfsList_cons_false] at hres ⊢
    rcases hnd : dfsNode g fuel d path st with ⟨b1, st1⟩
    rw [hnd] at hres
    cases b1 with
    | true =>
      rw [dfsList_true] at hres
      simp at hres
    | false =>
      have hspec := hnode d path st (h4 d (List.mem_cons_self _ _)) h3 h2 h1
      rw [hnd] at hspec
      obtain ⟨n1, n2, n3, n4, n5, n6⟩ := hspec rfl
      simp only at n1 n2 n3 n4 n5 n6
      have h1' : unvisitedCount g st1.visited ≤ fuel :=
        le_trans (unvisitedCount_mono n2) h1
      obtain ⟨l1, l2, l3, l4, l5, l6⟩ :=
        ih path st1 (fun t ht => h4 t (List.mem_cons_of_mem _ ht)) n6 n5 h1' hres
      refine ⟨by rw [l1, n1], fun x hx => l2 x (n2 x hx), by rw [l3, n3], ?_, l5, l6⟩
      intro t ht
      rcases List.mem_cons.mp ht with rfl | ht2
      · exact ⟨l2 t n4.1, by rw [l1]; exact n4.2⟩
      · exact l4 t ht2

theorem nodeSpec_all (g : Graph) : ∀ fuel, NodeSpecP g fuel := by
  intro fuel
  induction fuel with
  | zero =>
    intro key path st hsome h3 h2 h1 hres
    by_cases hk1 : key ∈ st.stack
    · rw [dfsNode_stackHit hk1] at hres
      simp at hres
    · by_cases hk2 : key ∈ st.visited
      · rw [dfsNode_visited hk1 hk2]
        exact ⟨rfl, fun x hx => hx, rfl, ⟨hk2, hk1⟩, h2, h3⟩
      · obtain ⟨m, hf⟩ := Option.isSome_iff_exists.mp hsome
        have := unvisitedCount_pos hf hk2
        omega
  | succ f ihf =>
    have hlist : ListSpecP g f := listSpec_of_nodeSpec ihf
    intro key path st hsome h3 h2 h1 hres
    by_cases hk1 : key ∈ st.stack
    · rw [dfsNode_stackHit hk1] at hres
      simp at hres
    · by_cases hk2 : key ∈ st.visited
      · rw [dfsNode_visited hk1 hk2]
        exact ⟨rfl, fun x hx => hx, rfl, ⟨hk2, hk1⟩, h2, h3⟩
      · obtain ⟨m, hf⟩ := Option.isSome_iff_exists.mp hsome
        rw [dfsNode_some hk1 hk2 hf] at hres ⊢
        by_cases hr : (dfsList g f (depsOf g m) (path ++ [key])
            (false, ⟨key :: st.visited, key :: st.stack, st.cycles⟩)).1 = true
        · rw [if_pos hr] at hres
          rw [hres] at hr
          simp at hr
        · rw [if_neg hr] at hres ⊢
          have hrf : (dfsList g f (depsOf g m) (path ++ [key])
              (false, ⟨key :: st.visited, key :: st.stack, st.cycles⟩)).1 = false := by
            simpa using hr
          have hstk0 : ∀ x ∈ (⟨key :: st.visited, key :: st.stack, st.cycles⟩ :
              DfsState).stack, x ∈ (⟨key :: st.visited, key :: st.stack, st.cycles⟩ :
              DfsState).visited := by
            intro x hx
            rcases List.mem_cons.mp hx with rfl | hx2
            · exact List.mem_cons_self _ _
            · exact List.mem_cons_of_mem _ (h3 x hx2)
          have hinv0 : DfsInv g ⟨key :: st.visited, key :: st.stack, st.cycles⟩ := by
            intro x hx
            obtain ⟨hxv, hxs⟩ := hx
            have hxk : x ≠ key := fun hcon => hxs (hcon ▸ List.mem_cons_self _ _)
            have hxv2 : x ∈ st.visited := by
              rcases List.mem_cons.mp hxv with rfl | h
              · exact absurd rfl hxk
              · exact h
            have hxs2 : x ∉ st.stack := fun hcon => hxs (List.mem_cons_of_mem _ hcon)
            obtain ⟨hcl, hnc⟩ := h2 x ⟨hxv2, hxs2⟩
            refine ⟨?_, hnc⟩
            intro e he
            obtain ⟨hev, hes⟩ := hcl e he
            have hek : e ≠ key := fun hcon => hk2 (hcon ▸ hev)
            exact ⟨List.mem_cons_of_mem _ hev, by
              intro hcon
              rcases List.mem_cons.mp hcon with h | h
              · exact hek h
              · exact hes h⟩
          have hcnt0 : unvisitedCount g (key :: st.visited) ≤ f := by
            have := unvisitedCount_lt hf hk2
            omega
          obtain ⟨l1, l2, l3, l4, l5, l6⟩ := hlist (depsOf g m) (path ++ [key])
            ⟨key :: st.visited, key :: st.stack, st.cycles⟩
            (fun t ht => mem_depsOf_isSome ht) hstk0 hinv0 hcnt0 hrf
          simp only at l1 l2 l3 l4 l5 l6
          constructor
          · show ((dfsList g f (depsOf g m) (path ++ [key])
              (false, ⟨key :: st.visited, key :: st.stack,
                st.cycles⟩)).2.stack).erase key = st.stack
            rw [l1, List.erase_cons_head]
          refine ⟨?_, l3, ?_, ?_, ?_⟩
          · exact fun x hx => l2 x (List.mem_cons_of_mem _ hx)
          · exact ⟨l2 key (List.mem_cons_self _ _), by
              show key ∉ ((dfsList g f (depsOf g m) (path ++ [key])
                (false, ⟨key :: st.visited, key :: st.stack,
                  st.cycles⟩)).2.stack).erase key
              rw [l1, List.erase_cons_head]
              exact hk1⟩
          · intro x hx
            obtain ⟨hxv, hxs⟩ := hx
            rw [l1, List.erase_cons_head] at hxs
            by_cases hxk : x = key
            · subst hxk
              constructor
              · intro e he
                have he2 : e ∈ depsOf g m := by
                  unfold edgeTo depsOfKey at he
                  rw [hf] at he
                  exact he
                obtain ⟨hev, hes⟩ := l4 e he2
                refine ⟨hev, ?_⟩
                rw [l1, List.erase_cons_head]
                rw [l1] at hes
                exact fun hcon => hes (List.mem_cons_of_mem _ hcon)
              · intro hcyc
                obtain ⟨e, he, hreach⟩ := Relation.TransGen.head'_iff.mp hcyc
                have he2 : e ∈ depsOf g m := by
                  unfold edgeTo depsOfKey at he
                  rw [hf] at he
                  exact he
                have hfinK := DfsInv.reach l5 (l4 e he2) hreach
                exact hfinK.2 (by rw [l1]; exact List.mem_cons_self _ _)
            · have hxfin : Finished (dfsList g f (depsOf g m) (path ++ [key])
                  (false, ⟨key :: st.visited, key :: st.stack, st.cycles⟩)).2 x := by
                refine ⟨hxv, ?_⟩
                rw [l1]
                intro hcon
                rcases List.mem_cons.mp hcon with h | h
                · exact hxk h
                · exact hxs h
              obtain ⟨hcl, hnc⟩ := l5 x hxfin
              refine ⟨?_, hnc⟩
              intro e he
              obtain ⟨hev, hes⟩ := hcl e he
              rw [l1] at hes
              refine ⟨hev, ?_⟩
              rw [l1, List.erase_cons_head]
              exact fun hcon => hes (List.mem_cons_of_mem _ hcon)
          · intro x hx
            rw [l1, List.erase_cons_head] at hx
            exact l6 x (by rw [l1]; exact List.mem_cons_of_mem _ hx)

theorem findNode_provides_isSome {g : Graph} {m : DataBuilderMeta} (hm : m ∈ g) :
    (findNode g m.provides).isSome := by
  unfold findNode
  rw [List.find?_isSome]
  exact ⟨m, hm, by simp⟩

theorem detectFold_cycles_mono (g : Graph) :
    ∀ (ms : List DataBuilderMeta) (st : DfsState),
    ∃ suf, (ms.foldl (fun st m => if m.provides ∈ st.visited then st
        else (dfsNode g g.length m.provides [] st).2) st).cycles =
      st.cycles ++ suf := by
  intro ms
  induction ms with
  | nil => exact fun st => ⟨[], by simp⟩
  | cons m rest ih =>
    intro st
    rw [List.foldl_cons]
    by_cases hv : m.provides ∈ st.visited
    · rw [if_pos hv]
      exact ih st
    · rw [if_neg hv]
      obtain ⟨suf1, hc1, _⟩ := dfsNode_cycles_mono g g.length m.provides [] st
      obtain ⟨suf2, hc2⟩ := ih ((dfsNode g g.length m.provides [] st).2)
      exact ⟨suf1 ++ suf2, by rw [hc2, hc1, List.append_assoc]⟩

theorem detectFold_spec (g : Graph) :
    ∀ (ms : List DataBuilderMeta) (st : DfsState),
    (∀ m ∈ ms, (findNode g m.provides).isSome) →
    st.stack = [] →
    DfsInv g st →
    (ms.foldl (fun st m => if m.provides ∈ st.visited then st
        else (dfsNode g g.length m.provides [] st).2) st).cycles = st.cycles →
    ((ms.foldl (fun st m => if m.provides ∈ st.visited then st
        else (dfsNode g g.length m.provides [] st).2) st).stack = [] ∧
     (∀ x ∈ st.visited, x ∈ (ms.foldl (fun st m => if m.provides ∈ st.visited then st
        else (dfsNode g g.length m.provides [] st).2) st).visited) ∧
     DfsInv g (ms.foldl (fun st m => if m.provides ∈ st.visited then st
        else (dfsNode g g.length m.provides [] st).2) st) ∧
     ∀ m ∈ ms, Finished (ms.foldl (fun st m => if m.provides ∈ st.visited then st
        else (dfsNode g g.length m.provides [] st).2) st) m.provides) := by
  intro ms
  induction ms with
  | nil =>
    intro st _hsome hstk hinv _hcyc
    exact ⟨hstk, fun x hx => hx, hinv, by simp⟩
  | cons m rest ih =>
    intro st hsome hstk hinv hcyc
    rw [List.foldl_cons] at hcyc ⊢
    by_cases hv : m.provides ∈ st.visited
    · rw [if_pos hv] at hcyc ⊢
      obtain ⟨f1, f2, f3, f4⟩ := ih st (fun n hn => hsome n (List.mem_cons_of_mem _ hn))
        hstk hinv hcyc
      refine ⟨f1, f2, f3, ?_⟩
      intro n hn
      rcases List.mem_cons.mp hn with rfl | hn2
      · exact ⟨f2 _ hv, by rw [f1]; simp⟩
      · exact f4 n hn2
    · rw [if_neg hv] at hcyc ⊢
      obtain ⟨suf1, hc1, hb1⟩ := dfsNode_cycles_mono g g.length m.provides [] st
      obtain ⟨suf2, hc2⟩ :=
        detectFold_cycles_mono g rest ((dfsNode g g.length m.provides [] st).2)
      have hnil : suf1 = [] ∧ suf2 = [] := by
        rw [hc2, hc1, List.append_assoc] at hcyc
        have hlen := congrArg List.length hcyc
        simp only [List.length_append] at hlen
        have hl1 : suf1.length = 0 := by omega
        have hl2 : suf2.length = 0 := by omega
        exact ⟨List.eq_nil_of_length_eq_zero hl1, List.eq_nil_of_length_eq_zero hl2⟩
      have hb1f : (dfsNode g g.length m.provides [] st).1 = false := by
        rcases Bool.eq_false_or_eq_true (dfsNode g g.length m.provides [] st).1 with
          hb | hb
        · exact absurd hnil.1 (hb1.mp hb)
        · exact hb
      have hstksub : ∀ x ∈ st.stack, x ∈ st.visited := by
        rw [hstk]
        simp
      obtain ⟨n1, n2, n3, n4, n5, n6⟩ := nodeSpec_all g g.length m.provides [] st
        (hsome m (List.mem_cons_self _ _)) hstksub hinv
        (List.length_filter_le _ _) hb1f
      have hcyc2 : (rest.foldl (fun st m => if m.provides ∈ st.visited then st
          else (dfsNode g g.length m.provides [] st).2)
            ((dfsNode g g.length m.provides [] st).2)).cycles =
          (dfsNode g g.length m.provides [] st).2.cycles := by
        rw [hcyc, n3]
      obtain ⟨f1, f2, f3, f4⟩ := ih ((dfsNode g g.length m.provides [] st).2)
        (fun n hn => hsome n (List.mem_cons_of_mem _ hn)) (by rw [n1, hstk]) n5 hcyc2
      refine ⟨f1, fun x hx => f2 x (n2 x hx), f3, ?_⟩
      intro n hn
      rcases List.mem_cons.mp hn with rfl | hn2
      · exact ⟨f2 _ n4.1, by rw [f1]; simp⟩
      · exact f4 n hn2

/-- Completeness of `detectCycles`: when it reports no cycle, the graph is
acyclic. -/
theorem detectCycles_nil_acyclic {g : Graph} (h : detectCycles g = []) :
    Acyclic g := by
  unfold detectCycles at h
  have hinv0 : DfsInv g ⟨[], [], []⟩ := by
    intro x hx
    exact absurd hx.1 (by simp)
  obtain ⟨_f1, _f2, f3, f4⟩ := detectFold_spec g g ⟨[], [], []⟩
    (fun m hm => findNode_provides_isSome hm) rfl hinv0 h
  rintro ⟨k, hk⟩
  obtain ⟨d, he, _⟩ := Relation.TransGen.head'_iff.mp hk
  obtain ⟨m, hm, hprov, _⟩ := edgeTo_mem he
  have hfin := f4 m hm
  rw [hprov] at hfin
  exact (f3 k hfin).2 hk

theorem calcLevelsGo_zero {g : Graph} {order processed : List String} :
    calcLevelsGo g order 0 processed = [] := rfl

theorem calcLevelsGo_succ {g : Graph} {order processed : List String} {f : Nat} :
    calcLevelsGo g order (f + 1) processed =
      if order.filter (fun k => decide (k ∉ processed)) = [] then []
      else if levelStep g order processed = [] then []
      else levelStep g order processed ::
        calcLevelsGo g order f (processed ++ levelStep g order processed) := rfl

/-- Each produced level only contains keys whose dependencies were already
processed before the level, recursively. -/
def LevelsOk (g : Graph) : List String → List (List String) → Prop
  | _, [] => True
  | processed, l :: ls =>
    (∀ k ∈ l, ∀ d, edgeTo g k d → d ∈ processed) ∧ LevelsOk g (processed ++ l) ls

theorem exists_first_filter {α : Type} (p : α → Bool) :
    ∀ (l : List α), l.filter p ≠ [] →
    ∃ l1 x l2, l = l1 ++ x :: l2 ∧ p x = true ∧ ∀ y ∈ l1, p y = false := by
  intro l
  induction l with
  | nil => intro h; simp at h
  | cons a t ih =>
    intro h
    by_cases hp : p a
    · exact ⟨[], a, t, by simp, hp, by simp⟩
    · have hp' : p a = false := by simpa using hp
      have ht : t.filter p ≠ [] := by
        rw [List.filter_cons, hp'] at h
        simpa using h
      obtain ⟨l1, x, l2, heq, hx, hall⟩ := ih ht
      refine ⟨a :: l1, x, l2, by rw [heq]; rfl, hx, ?_⟩
      intro y hy
      rcases List.mem_cons.mp hy with rfl | hy2
      · exact hp'
      · exact hall y hy2

theorem levelStep_as_filter (g : Graph) (order processed : List String) :
    levelStep g order processed =
      (order.filter (fun k => decide (k ∉ processed))).filter
        (fun k => (depsOfKey g k).all (fun d => decide (d ∈ processed))) := by
  rw [List.filter_filter]
  unfold levelStep
  apply List.filter_congr
  intro k _hk
  exact Bool.and_comm _ _

theorem remaining_as_filter (g : Graph) (order processed : List String) :
    order.filter (fun k => decide (k ∉ processed ++ levelStep g order processed)) =
      (order.filter (fun k => decide (k ∉ processed))).filter
        (fun k => !((depsOfKey g k).all (fun d => decide (d ∈ processed)))) := by
  rw [List.filter_filter]
  apply List.filter_congr
  intro k hk
  by_cases hkp : k ∈ processed
  · simp [hkp, List.mem_append]
  · by_cases hka : (depsOfKey g k).all (fun d => decide (d ∈ processed)) = true
    · have hkc : k ∈ levelStep g order processed := by
        unfold levelStep
        rw [List.mem_filter]
        exact ⟨hk, by simp [hkp, hka]⟩
      simp [hkc, hka, hkp, List.mem_append]
    · have hkc : k ∉ levelStep g order processed := by
        intro hc
        unfold levelStep at hc
        have h2 := (List.mem_filter.mp hc).2
        simp only [Bool.and_eq_true] at h2
        exact hka h2.2
      simp [hkc, hka, hkp, List.mem_append]

theorem levelStep_perm (g : Graph) (order processed : List String) :
    List.Perm (levelStep g order processed ++
        order.filter (fun k => decide (k ∉ processed ++ levelStep g order processed)))
      (order.filter (fun k => decide (k ∉ processed))) := by
  rw [remaining_as_filter, levelStep_as_filter]
  exact List.filter_append_perm _ _

theorem calcLevelsGo_spec (g : Graph) (order : List String)
    (hdb : ∀ l1 a l2, order = l1 ++ a :: l2 → ∀ d, edgeTo g a d → d ∈ l1) :
    ∀ (fuel : Nat) (processed : List String),
    (order.filter (fun k => decide (k ∉ processed))).length ≤ fuel →
    (List.Perm (calcLevelsGo g order fuel processed).join
      (order.filter (fun k => decide (k ∉ processed))) ∧
     LevelsOk g processed (calcLevelsGo g order fuel processed)) := by
  intro fuel
  induction fuel with
  | zero =>
    intro processed h1
    have hfe : order.filter (fun k => decide (k ∉ processed)) = [] :=
      List.eq_nil_of_length_eq_zero (Nat.le_zero.mp h1)
    rw [calcLevelsGo_zero, hfe]
    exact ⟨by simp, trivial⟩
  | succ f ihf =>
    intro processed h1
    rw [calcLevelsGo_succ]
    by_cases hemp : order.filter (fun k => decide (k ∉ processed)) = []
    · rw [if_pos hemp, hemp]
      exact ⟨by simp, trivial⟩
    · rw [if_neg hemp]
      obtain ⟨l1, x, l2, heq, hx, hall⟩ := exists_first_filter _ order hemp
      have hxdeps : ∀ d, edgeTo g x d → d ∈ processed := by
        intro d hd
        have hd1 := hdb l1 x l2 heq d hd
        have hd2 := hall d hd1
        simpa using hd2
      have hxcur : x ∈ levelStep g order processed := by
        unfold levelStep
        rw [List.mem_filter]
        refine ⟨by rw [heq]; exact List.mem_append_right _ (List.mem_cons_self _ _), ?_⟩
        simp only [Bool.and_eq_true, decide_eq_true_eq, List.all_eq_true]
        refine ⟨by simpa using hx, ?_⟩
        intro d hd
        exact hxdeps d hd
      have hcur : levelStep g order processed ≠ [] := List.ne_nil_of_mem hxcur
      rw [if_neg hcur]
      have hfuel' : (order.filter (fun k =>
          decide (k ∉ processed ++ levelStep g order processed))).length ≤ f := by
        have hlt := length_filter_lt
          (p := fun k => decide (k ∉ processed ++ levelStep g order processed))
          (q := fun k => decide (k ∉ processed))
          (l := order)
          (fun a ha => by
            simp only [decide_eq_true_eq, List.mem_append] at ha ⊢
            exact fun hc => ha (Or.inl hc))
          (a := x)
          (by rw [heq]; exact List.mem_append_right _ (List.mem_cons_self _ _))
          hx
          (by simp [List.mem_append, hxcur])
        omega
      obtain ⟨ihp, ihok⟩ := ihf (processed ++ levelStep g order processed) hfuel'
      constructor
      · rw [List.join]
        exact List.Perm.trans (List.Perm.append_left _ ihp)
          (levelStep_perm g order processed)
      · refine ⟨?_, ihok⟩
        intro k hk d hd
        unfold levelStep at hk
        have h2 := (List.mem_filter.mp hk).2
        simp only [Bool.and_eq_true, decide_eq_true_eq, List.all_eq_true] at h2
        exact h2.2 d hd

theorem LevelsOk.level_index {g : Graph} :
    ∀ (ls : List (List String)) (processed : List String), LevelsOk g processed ls →
    ∀ (i : Nat) (hi : i < ls.length) (k : String), k ∈ ls.get ⟨i, hi⟩ →
    ∀ d, edgeTo g k d →
      d ∈ processed ∨ ∃ j, ∃ (hj : j < ls.length), j < i ∧ d ∈ ls.get ⟨j, hj⟩ := by
  intro ls
  induction ls with
  | nil =>
    intro processed _ i hi
    simp at hi
  | cons l rest ih =>
    intro processed hok i hi k hk d hd
    have hok' : (∀ k ∈ l, ∀ d, edgeTo g k d → d ∈ processed) ∧
        LevelsOk g (processed ++ l) rest := hok
    cases i with
    | zero => exact Or.inl (hok'.1 k hk d hd)
    | succ i' =>
      have hi' : i' < rest.length := by simpa using hi
      rcases ih (processed ++ l) hok'.2 i' hi' k hk d hd with hin | ⟨j, hj, hlt, hmem⟩
      · rcases List.mem_append.mp hin with h | h
        · exact Or.inl h
        · exact Or.inr ⟨0, by simp, Nat.succ_pos _, h⟩
      · exact Or.inr ⟨j + 1, by simpa using hj, Nat.succ_lt_succ hlt, hmem⟩

theorem createExecutionPlan_valid_fields (ms : List DataBuilderMeta)
    (targetData : List String)
    (h : (createExecutionPlan ms targetData).isValid = true) :
    (createExecutionPlan ms targetData).executionOrder =
      getExecutionOrder (buildDependencyGraph ms) targetData ∧
    (createExecutionPlan ms targetData).parallelExecutionLevels =
      calculateParallelLevels (buildDependencyGraph ms)
        (getExecutionOrder (buildDependencyGraph ms) targetData) ∧
    (createExecutionPlan ms targetData).dependencyGraph = buildDependencyGraph ms ∧
    detectCycles (buildDependencyGraph ms) = [] := by
  by_cases hb : ((detectCycles (buildDependencyGraph ms)).isEmpty &&
      (findMissingDependencies (buildDependencyGraph ms) targetData).isEmpty) = true
  · have hcy : detectCycles (buildDependencyGraph ms) = [] := by
      rw [Bool.and_eq_true] at hb
      exact List.isEmpty_iff.mp hb.1
    refine ⟨?_, ?_, ?_, hcy⟩ <;>
      · unfold createExecutionPlan
        simp [hb]
  · exfalso
    unfold createExecutionPlan at h
    simp only [Bool.not_eq_true] at hb
    simp [hb] at h

/-- C2: for every plan produced by `createExecutionPlan` with
`isValid = true`, `parallelExecutionLevels` exactly partitions
`executionOrder` (the concatenation of the levels is a duplicate-free
permutation of `executionOrder`), and every node's level index is strictly
greater than the level index of each of its dependencies. -/
theorem C2_parallel_levels_partition (ms : List DataBuilderMeta)
    (targetData : List String)
    (h : (createExecutionPlan ms targetData).isValid = true) :
    ((createExecutionPlan ms targetData).parallelExecutionLevels.join.Nodup ∧
     List.Perm (createExecutionPlan ms targetData).parallelExecutionLevels.join
       (createExecutionPlan ms targetData).executionOrder) ∧
    (∀ (i : Nat)
       (hi : i < (createExecutionPlan ms targetData).parallelExecutionLevels.length)
       (k : String),
       k ∈ (createExecutionPlan ms targetData).parallelExecutionLevels.get ⟨i, hi⟩ →
       ∀ d, edgeTo (createExecutionPlan ms targetData).dependencyGraph k d →
       ∃ j, ∃ (hj : j <
           (createExecutionPlan ms targetData).parallelExecutionLevels.length),
         j < i ∧
         d ∈ (createExecutionPlan ms targetData).parallelExecutionLevels.get
           ⟨j, hj⟩) := by
  obtain ⟨ho, hl, hg, hcy⟩ := createExecutionPlan_valid_fields ms targetData h
  have hacyc := detectCycles_nil_acyclic hcy
  have htopo := getExecutionOrder_TopoSorted hacyc targetData
  have hfe : (fun k => decide (k ∉ ([] : List String))) = fun _ : String => true := by
    funext k
    simp
  have hfuel : ((getExecutionOrder (buildDependencyGraph ms) targetData).filter
      (fun k => decide (k ∉ ([] : List String)))).length ≤
      (getExecutionOrder (buildDependencyGraph ms) targetData).length := by
    rw [hfe, List.filter_true]
  obtain ⟨hperm, hok⟩ := calcLevelsGo_spec (buildDependencyGraph ms)
    (getExecutionOrder (buildDependencyGraph ms) targetData) htopo.deps_before
    (getExecutionOrder (buildDependencyGraph ms) targetData).length [] hfuel
  rw [hfe, List.filter_true] at hperm
  rw [ho, hl, hg]
  have hperm' : List.Perm
      (calculateParallelLevels (buildDependencyGraph ms)
        (getExecutionOrder (buildDependencyGraph ms) targetData)).join
      (getExecutionOrder (buildDependencyGraph ms) targetData) := hperm
  constructor
  · exact ⟨hperm'.symm.nodup htopo.nodup, hperm'⟩
  · intro i hi k hk d hd
    rcases LevelsOk.level_index _ [] hok i hi k hk d hd with hin | hj
    · exact absurd hin (by simp)
    · exact hj

/-- Witness for C2: the three-builder example with target `C`. -/
theorem C2_parallel_levels_partition_witness :
    (createExecutionPlan exMetas ["C"]).isValid = true ∧
    (((createExecutionPlan exMetas ["C"]).parallelExecutionLevels.join.Nodup ∧
      List.Perm (createExecutionPlan exMetas ["C"]).parallelExecutionLevels.join
        (createExecutionPlan exMetas ["C"]).executionOrder) ∧
     (∀ (i : Nat)
        (hi : i < (createExecutionPlan exMetas ["C"]).parallelExecutionLevels.length)
        (k : String),
        k ∈ (createExecutionPlan exMetas ["C"]).parallelExecutionLevels.get ⟨i, hi⟩ →
        ∀ d, edgeTo (createExecutionPlan exMetas ["C"]).dependencyGraph k d →
        ∃ j, ∃ (hj : j <
            (createExecutionPlan exMetas ["C"]).parallelExecutionLevels.length),
          j < i ∧
          d ∈ (createExecutionPlan exMetas ["C"]).parallelExecutionLevels.get
            ⟨j, hj⟩)) :=
  ⟨by decide, C2_parallel_levels_partition exMetas ["C"] (by decide)⟩

/-- A datum (src `types/index.ts`, `Data`): its `type` tag plus a payload
(opaque application values are modelled as naturals). -/
structure Data where
  type : String
  value : Nat
deriving Repr, DecidableEq

/-- The typed store (src `DataSetImpl`), modelled as the lookup function of
its internal `Map<string, Data>`. -/
def DataSet := String → Option Data

/-- `DataSetImpl.contains(dataType)`. -/
def DataSet.contains (ds : DataSet) (dataType : String) : Bool :=
  (ds dataType).isSome

/-- `DataSetImpl.add(data)`: keyed by the datum's own `type`, overwriting. -/
def DataSet.add (ds : DataSet) (d : Data) : DataSet :=
  fun t => if t = d.type then some d else ds t

/-- `new DataSetImpl()`. -/
def emptyDataSet : DataSet := fun _ => none

/-- The `initialData` of an `ExecutionContext`: either an actual
`DataSetImpl` (contents accessible) or some other implementation of the
`DataSet` interface, whose internal data `cloneDataSet` cannot reach. -/
inductive InitialData where
  | impl (ds : DataSet)
  | generic (ds : DataSet)

/-- `ExecutionStrategy.cloneDataSet`: a `DataSetImpl` is cloned (an equal
independent copy — identical contents in this pure model); any other
`DataSet` yields a fresh empty `DataSetImpl`. -/
def cloneDataSet (dataSet : InitialData) : DataSet :=
  match dataSet with
  | .impl ds => ds
  | .generic _ => emptyDataSet

/-- What awaiting one `builder.build(dataSet)` call does: settle after
`time` milliseconds with either a produced value (`none` models a falsy
result) or a thrown error (by message). -/
inductive BuildOutcome where
  | ok (result : Option Data)
  | thrown (msg : String)
deriving Repr, DecidableEq

structure BuildStep where
  time : Nat
  outcome : BuildOutcome
deriving Repr, DecidableEq

/-- A builder as the execution layer sees it: its constructor name and its
`build` behaviour. -/
structure DataBuilder where
  name : String
  build : DataSet → BuildStep

/-- `BuilderRegistry.get` as a lookup function. -/
def Registry := String → Option DataBuilder

/-- Errors that can reject a run (src `ExecutionStrategy.ts`): a plain
`Error` identified by its message, or a `BuilderExecutionError` carrying
the failing builder's name, the target data type and the original cause. -/
inductive RunError where
  | plainError (message : String)
  | builderExecutionError (builderName dataType : String) (cause : RunError)
deriving Repr, DecidableEq

/-- `ExecutionOptions` (src `ExecutionStrategy.ts`).  An absent
`continueOnError` is falsy, hence modelled as `false`. -/
structure ExecutionOptions where
  maxConcurrency : Option Nat := none
  builderTimeout : Option Nat := none
  continueOnError : Bool := false

/-- The collector state relevant to the execution strategies
(src `ExecutionStatisticsCollector`): per-type execution times, the
executed count and the skip count. -/
structure StatsState where
  builderExecutionTimes : List (String × Nat)
  buildersExecuted : Nat
  skipCount : Nat
deriving Repr, DecidableEq

/-- `Map.set` on an association list: overwrite in place or append. -/
def setAssoc : List (String × Nat) → String → Nat → List (String × Nat)
  | [], k, v => [(k, v)]
  | (k', v') :: rest, k, v =>
    if k' = k then (k, v) :: rest else (k', v') :: setAssoc rest k v

/-- `ExecutionStatisticsCollector.recordBuilderExecution`. -/
def recordBuilderExecution (st : StatsState) (dataType : String)
    (executionTime : Nat) : StatsState :=
  { st with builderExecutionTimes := setAssoc st.builderExecutionTimes dataType executionTime
            buildersExecuted := st.buildersExecuted + 1 }

/-- `ExecutionStatisticsCollector.recordSkippedBuilder`. -/
def recordSkippedBuilder (st : StatsState) : StatsState :=
  { st with skipCount := st.skipCount + 1 }

structure StepResult where
  dataType : String
  skipped : Bool
  result : Option Data
  executionTime : Nat
deriving Repr, DecidableEq

def outcomeToExcept : BuildOutcome → Except RunError (Option Data)
  | .ok r => .ok r
  | .thrown msg => .error (.plainError msg)

/-- Awaiting `withTimeout(builder.build(...), timeoutMs, dataType)` (or the
bare build promise when no truthy timeout is configured): when a non-zero
timeout is set and the build does not settle within the bound, the race
rejects with the timeout `Error`; otherwise the build's own outcome is
awaited. -/
def awaitWithTimeout (options : ExecutionOptions) (dataType : String)
    (step : BuildStep) : Except RunError (Option Data) :=
  match options.builderTimeout with
  | some timeoutMs =>
    if timeoutMs ≠ 0 then
      if step.time > timeoutMs then
        .error (.plainError ("Builder for " ++ dataType ++ " timed out after "
          ++ toString timeoutMs ++ "ms"))
      else outcomeToExcept step.outcome
    else outcomeToExcept step.outcome
  | none => outcomeToExcept step.outcome

/-- `ExecutionStrategy.executeBuilder(dataType, resultDataSet, options)`.
The timeout race of `withTimeout` is modelled by its observable outcome:
when a (truthy, hence non-zero) timeout is configured and the build does
not settle within the bound, the await rejects with the timeout `Error`;
otherwise the build's own outcome is awaited.  Rejections are wrapped as
`BuilderExecutionError` or, under `continueOnError`, logged and turned
into a no-contribution result. -/
def executeBuilder (reg : Registry) (dataType : String) (resultDataSet : DataSet)
    (options : ExecutionOptions) (stats : StatsState) :
    Except RunError (StepResult × StatsState) :=
  if resultDataSet.contains dataType then
    .ok (⟨dataType, true, none, 0⟩, recordSkippedBuilder stats)
  else
    match reg dataType with
    | none => .error (.plainError ("No builder found for data type: " ++ dataType))
    | some builder =>
      let step := builder.build resultDataSet
      match awaitWithTimeout options dataType step with
      | .ok result =>
        .ok (⟨dataType, false, result, step.time⟩,
          recordBuilderExecution stats dataType step.time)
      | .error cause =>
        if options.continueOnError then
          .ok (⟨dataType, false, none, 0⟩, stats)
        else
          .error (.builderExecutionError builder.name dataType cause)

/-- The result record of `ExecutionStrategy.execute`. -/
structure ExecutionResult where
  dataSet : DataSet
  executionOrder : List String
  stats : StatsState

/-- The `for (const dataType of plan.executionOrder)` loop of
`SequentialExecutionStrategy.execute`: run each step, folding any produced
value into the shared dataset before the next step. -/
def runSequential (reg : Registry) (options : ExecutionOptions) :
    List String → DataSet → StatsState →
    Except RunError (DataSet × StatsState)
  | [], ds, st => .ok (ds, st)
  | dataType :: rest, ds, st =>
    match executeBuilder reg dataType ds options st with
    | .error e => .error e
    | .ok (res, st') =>
      let ds' := match res.result with
        | some d => ds.add d
        | none => ds
      runSequential reg options rest ds' st'

/-- `SequentialExecutionStrategy.execute(context, plan, options)` (the
statistics collector starts from a reset state). -/
def SequentialExecutionStrategy.execute (reg : Registry) (initialData : InitialData)
    (plan : ExecutionPlan) (options : ExecutionOptions) :
    Except RunError ExecutionResult :=
  match runSequential reg options plan.executionOrder (cloneDataSet initialData)
      ⟨[], 0, 0⟩ with
  | .error e => .error e
  | .ok (ds, st) => .ok ⟨ds, plan.executionOrder, st⟩

/-- `Promise.all(batch.map(dataType => this.executeBuilder(...)))`: every
step of the batch reads the same pre-batch dataset; the collector calls
are threaded in batch order; the first rejection rejects the batch. -/
def runBatch (reg : Registry) (options : ExecutionOptions) :
    List String → DataSet → StatsState →
    Except RunError (List StepResult × StatsState)
  | [], _, st => .ok ([], st)
  | dataType :: rest, ds, st =>
    match executeBuilder reg dataType ds options st with
    | .error e => .error e
    | .ok (res, st') =>
      match runBatch reg options rest ds st' with
      | .error e => .error e
      | .ok (results, st'') => .ok (res :: results, st'')

/-- `ParallelExecutionStrategy.executeBatch`: await the whole batch, then
fold the produced values into the dataset. -/
def executeBatch (reg : Registry) (options : ExecutionOptions)
    (batch : List String) (resultDataSet : DataSet) (stats : StatsState) :
    Except RunError (DataSet × StatsState) :=
  match runBatch reg options batch resultDataSet stats with
  | .error e => .error e
  | .ok (results, st') =>
    .ok (results.foldl
      (fun acc r => match r.result with
        | some d => acc.add d
        | none => acc) resultDataSet, st')

/-- The batch slices `level.slice(i, i + maxConcurrency)` of
`executeLevel`'s for-loop (fuel: one unit per element suffices for a
positive batch size). -/
def chunkBatches (maxConcurrency : Nat) : Nat → List String → List (List String)
  | 0, _ => []
  | _, [] => []
  | fuel + 1, l =>
    l.take maxConcurrency :: chunkBatches maxConcurrency fuel (l.drop maxConcurrency)

/-- Sequentially running a list of batches, folding results between. -/
def runBatches (reg : Registry) (options : ExecutionOptions) :
    List (List String) → DataSet → StatsState →
    Except RunError (DataSet × StatsState)
  | [], ds, st => .ok (ds, st)
  | b :: rest, ds, st =>
    match executeBatch reg options b ds st with
    | .error e => .error e
    | .ok (ds', st') => runBatches reg options rest ds' st'

/-- `const maxConcurrency = options.maxConcurrency || level.length`
(zero is falsy). -/
def effectiveMaxConcurrency (options : ExecutionOptions)
    (level : List String) : Nat :=
  match options.maxConcurrency with
  | some c => if c ≠ 0 then c else level.length
  | none => level.length

/-- `ParallelExecutionStrategy.executeLevel`: one batch when the bound
covers the level, otherwise sequential batches of that size. -/
def executeLevel (reg : Registry) (options : ExecutionOptions)
    (level : List String) (resultDataSet : DataSet) (stats : StatsState) :
    Except RunError (DataSet × StatsState) :=
  if effectiveMaxConcurrency options level ≥ level.length then
    executeBatch reg options level resultDataSet stats
  else
    runBatches reg options
      (chunkBatches (effectiveMaxConcurrency options level) level.length level)
      resultDataSet stats

/-- The `for (const level of plan.parallelExecutionLevels)` loop. -/
def runLevels (reg : Registry) (options : ExecutionOptions) :
    List (List String) → DataSet → StatsState →
    Except RunError (DataSet × StatsState)
  | [], ds, st => .ok (ds, st)
  | level :: rest, ds, st =>
    match executeLevel reg options level ds st with
    | .error e => .error e
    | .ok (ds', st') => runLevels reg options rest ds' st'

/-- `ParallelExecutionStrategy.execute(context, plan, options)`. -/
def ParallelExecutionStrategy.execute (reg : Registry) (initialData : InitialData)
    (plan : ExecutionPlan) (options : ExecutionOptions) :
    Except RunError ExecutionResult :=
  match runLevels reg options plan.parallelExecutionLevels
      (cloneDataSet initialData) ⟨[], 0, 0⟩ with
  | .error e => .error e
  | .ok (ds, st) => .ok ⟨ds, plan.executionOrder, st⟩

theorem executeBuilder_skip {reg : Registry} {u : String} {ds : DataSet}
    {options : ExecutionOptions} {st : StatsState}
    (hc : ds.contains u = true) :
    executeBuilder reg u ds options st =
      .ok (⟨u, true, none, 0⟩, recordSkippedBuilder st) := by
  simp [executeBuilder, hc]

theorem executeBuilder_noBuilder {reg : Registry} {u : String} {ds : DataSet}
    {options : ExecutionOptions} {st : StatsState}
    (hc : ds.contains u = false) (hreg : reg u = none) :
    executeBuilder reg u ds options st =
      .error (.plainError ("No builder found for data type: " ++ u)) := by
  simp [executeBuilder, hc, hreg]

theorem executeBuilder_run {reg : Registry} {u : String} {ds : DataSet}
    {options : ExecutionOptions} {st : StatsState} {b : DataBuilder}
    (hc : ds.contains u = false) (hreg : reg u = some b) :
    executeBuilder reg u ds options st =
      match awaitWithTimeout options u (b.build ds) with
      | .ok result =>
        .ok (⟨u, false, result, (b.build ds).time⟩,
          recordBuilderExecution st u (b.build ds).time)
      | .error cause =>
        if options.continueOnError then .ok (⟨u, false, none, 0⟩, st)
        else .error (.builderExecutionError b.name u cause) := by
  simp [executeBuilder, hc, hreg]

theorem outcomeToExcept_ok {o : BuildOutcome} {r : Option Data}
    (h : outcomeToExcept o = .ok r) : o = .ok r := by
  cases o with
  | ok r' => simpa [outcomeToExcept] using h
  | thrown msg => simp [outcomeToExcept] at h

theorem awaitWithTimeout_ok {options : ExecutionOptions} {u : String}
    {step : BuildStep} {r : Option Data}
    (h : awaitWithTimeout options u step = .ok r) : step.outcome = .ok r := by
  unfold awaitWithTimeout at h
  split at h
  · split at h
    · split at h
      · simp at h
      · exact outcomeToExcept_ok h
    · exact outcomeToExcept_ok h
  · exact outcomeToExcept_ok h

theorem awaitWithTimeout_none {options : ExecutionOptions} {u : String}
    {step : BuildStep} (hto : options.builderTimeout = none) :
    awaitWithTimeout options u step = outcomeToExcept step.outcome := by
  simp [awaitWithTimeout, hto]

/-- C7: with a (truthy) per-builder timeout configured and a build that
does not settle within the bound, the step's await rejects with the
builder-specific timeout `Error` carrying the configured bound in its
message, and that failure is handled exactly like a thrown error: wrapped
as a `BuilderExecutionError` by default, or logged and omitted (a
no-contribution result) under `continueOnError`. -/
theorem C7_timeout_behaviour (reg : Registry) (dataType : String) (ds : DataSet)
    (options : ExecutionOptions) (stats : StatsState) (b : DataBuilder)
    (timeoutMs : Nat)
    (hto : options.builderTimeout = some timeoutMs) (htz : timeoutMs ≠ 0)
    (hc : ds.contains dataType = false)
    (hreg : reg dataType = some b)
    (hslow : (b.build ds).time > timeoutMs) :
    awaitWithTimeout options dataType (b.build ds) =
      .error (.plainError ("Builder for " ++ dataType ++ " timed out after "
        ++ toString timeoutMs ++ "ms")) ∧
    (options.continueOnError = false →
      executeBuilder reg dataType ds options stats =
        .error (.builderExecutionError b.name dataType
          (.plainError ("Builder for " ++ dataType ++ " timed out after "
            ++ toString timeoutMs ++ "ms")))) ∧
    (options.continueOnError = true →
      executeBuilder reg dataType ds options stats =
        .ok (⟨dataType, false, none, 0⟩, stats)) := by
  have hawait : awaitWithTimeout options dataType (b.build ds) =
      .error (.plainError ("Builder for " ++ dataType ++ " timed out after "
        ++ toString timeoutMs ++ "ms")) := by
    simp [awaitWithTimeout, hto, htz, hslow]
  refine ⟨hawait, ?_, ?_⟩ <;> intro hce <;>
    rw [executeBuilder_run hc hreg, hawait] <;> simp [hce]

/-- C9: when the initial dataset is not a `DataSetImpl`, `cloneDataSet`
starts the run from an empty working dataset: no seeded value is carried
(the whole run equals the run started from an empty `DataSetImpl`), and
no type is contained at the start, so no step can be skipped on account
of a seeded value. -/
theorem C9_generic_initial_data (reg : Registry) (ds0 : DataSet)
    (plan : ExecutionPlan) (options : ExecutionOptions) :
    cloneDataSet (.generic ds0) = emptyDataSet ∧
    (∀ t, (cloneDataSet (InitialData.generic ds0)).contains t = false) ∧
    SequentialExecutionStrategy.execute reg (.generic ds0) plan options =
      SequentialExecutionStrategy.execute reg (.impl emptyDataSet) plan options ∧
    ParallelExecutionStrategy.execute reg (.generic ds0) plan options =
      ParallelExecutionStrategy.execute reg (.impl emptyDataSet) plan options :=
  ⟨rfl, fun _ => rfl, rfl, rfl⟩

/-- Every registered builder produces (when it succeeds with a value) data
tagged with its own type — the contract a well-formed builder set obeys. -/
def WellTyped (reg : Registry) : Prop :=
  ∀ u b, reg u = some b → ∀ ds d, (b.build ds).outcome = .ok (some d) → d.type = u

/-- Replace the registry entry for one type. -/
def updateReg (reg : Registry) (t : String) (b? : Option DataBuilder) : Registry :=
  fun u => if u = t then b? else reg u

/-- The per-builder step for `u` always resolves, producing data typed `u`
if any. -/
def StepSucceeds (reg : Registry) (options : ExecutionOptions) (u : String) : Prop :=
  ∀ ds st, ∃ p : StepResult × StatsState,
    executeBuilder reg u ds options st = .ok p ∧
    ∀ d, p.1.result = some d → d.type = u

/-- The per-builder step for `t` rejects with `e` whenever `t` is not yet
contained. -/
def StepFails (reg : Registry) (options : ExecutionOptions) (t : String)
    (e : RunError) : Prop :=
  ∀ ds st, ds.contains t = false → executeBuilder reg t ds options st = .error e

/-- The per-builder step for `t` resolves with no contribution whenever
`t` is not yet contained (the `continueOnError` downgrade path). -/
def StepNoContribution (reg : Registry) (options : ExecutionOptions)
    (t : String) : Prop :=
  ∀ ds st, ds.contains t = false →
    executeBuilder reg t ds options st = .ok (⟨t, false, none, 0⟩, st)

theorem contains_add {ds : DataSet} {d : Data} {x : String}
    (h : ds.contains x = true) : (ds.add d).contains x = true := by
  by_cases hx : x = d.type
  · simp [DataSet.add, DataSet.contains, hx]
  · simpa [DataSet.add, DataSet.contains, hx] using h

theorem add_ne {ds : DataSet} {d : Data} {x : String} (h : x ≠ d.type) :
    (ds.add d) x = ds x := by
  simp [DataSet.add, h]

theorem contains_of_some {ds : DataSet} {x : String} {v : Data}
    (h : ds x = some v) : ds.contains x = true := by
  simp [DataSet.contains, h]

theorem executeBuilder_result_type {reg : Registry} (hwt : WellTyped reg)
    {u : String} {ds : DataSet} {options : ExecutionOptions} {st : StatsState}
    {res : StepResult} {st' : StatsState} {d : Data}
    (h : executeBuilder reg u ds options st = .ok (res, st'))
    (hr : res.result = some d) : d.type = u ∧ ds.contains u = false := by
  by_cases hc : ds.contains u
  · rw [executeBuilder_skip hc] at h
    simp only [Except.ok.injEq, Prod.mk.injEq] at h
    rw [← h.1] at hr
    simp at hr
  · have hc' : ds.contains u = false := by simpa using hc
    cases hreg : reg u with
    | none =>
      rw [executeBuilder_noBuilder hc' hreg] at h
      simp at h
    | some b =>
      rw [executeBuilder_run hc' hreg] at h
      cases haw : awaitWithTimeout options u (b.build ds) with
      | ok r =>
        simp only [haw] at h
        simp only [Except.ok.injEq, Prod.mk.injEq] at h
        rw [← h.1] at hr
        simp only at hr
        refine ⟨hwt u b hreg ds d ?_, hc'⟩
        have := awaitWithTimeout_ok haw
        rw [hr] at this
        exact this
      | error cause =>
        simp only [haw] at h
        by_cases hce : options.continueOnError
        · simp only [hce, if_true] at h
          simp only [Except.ok.injEq, Prod.mk.injEq] at h
          rw [← h.1] at hr
          simp at hr
        · simp [hce] at h

theorem runSequential_nil {reg : Registry} {options : ExecutionOptions}
    {ds : DataSet} {st : StatsState} :
    runSequential reg options [] ds st = .ok (ds, st) := rfl

theorem runSequential_cons {reg : Registry} {options : ExecutionOptions}
    {u : String} {rest : List String} {ds : DataSet} {st : StatsState} :
    runSequential reg options (u :: rest) ds st =
      match executeBuilder reg u ds options st with
      | .error e => .error e
      | .ok (res, st') =>
        runSequential reg options rest
          (match res.result with | some d => ds.add d | none => ds) st' := rfl

theorem runSequential_preserves {reg : Registry} {options : ExecutionOptions}
    (hwt : WellTyped reg) :
    ∀ (order : List String) (ds : DataSet) (st : StatsState) (ds' : DataSet)
      (st' : StatsState) {t : String} {v : Data},
    ds t = some v →
    runSequential reg options order ds st = .ok (ds', st') →
    ds' t = some v := by
  intro order
  induction order with
  | nil =>
    intro ds st ds' st' t v hv h
    rw [runSequential_nil] at h
    simp only [Except.ok.injEq, Prod.mk.injEq] at h
    rw [← h.1]
    exact hv
  | cons u rest ih =>
    intro ds st ds' st' t v hv h
    rw [runSequential_cons] at h
    cases hx : executeBuilder reg u ds options st with
    | error e => simp [hx] at h
    | ok p =>
      obtain ⟨res, st1⟩ := p
      simp only [hx] at h
      cases hr : res.result with
      | none =>
        simp only [hr] at h
        exact ih ds st1 ds' st' hv h
      | some d =>
        simp only [hr] at h
        obtain ⟨hty, hcf⟩ := executeBuilder_result_type hwt hx hr
        have hne : t ≠ d.type := by
          rw [hty]
          intro hcon
          rw [← hcon] at hcf
          rw [contains_of_some hv] at hcf
          simp at hcf
        have hv' : (ds.add d) t = some v := by
          rw [add_ne hne]
          exact hv
        exact ih _ _ _ _ hv' h

theorem executeBuilder_indep {reg : Registry} {options : ExecutionOptions}
    {t : String} {b? : Option DataBuilder} {u : String} {ds : DataSet}
    {st : StatsState} (hcon : ds.contains t = true) :
    executeBuilder (updateReg reg t b?) u ds options st =
      executeBuilder reg u ds options st := by
  by_cases hu : u = t
  · subst hu
    rw [executeBuilder_skip hcon, executeBuilder_skip hcon]
  · unfold executeBuilder
    have hupd : updateReg reg t b? u = reg u := by simp [updateReg, hu]
    rw [hupd]

theorem runSequential_indep {reg : Registry} {options : ExecutionOptions}
    {t : String} {b? : Option DataBuilder} :
    ∀ (order : List String) (ds : DataSet) (st : StatsState),
    ds.contains t = true →
    runSequential (updateReg reg t b?) options order ds st =
      runSequential reg options order ds st := by
  intro order
  induction order with
  | nil => intro ds st _; rfl
  | cons u rest ih =>
    intro ds st hcon
    rw [runSequential_cons, runSequential_cons, executeBuilder_indep hcon]
    cases hx : executeBuilder reg u ds options st with
    | error e => rfl
    | ok p =>
      obtain ⟨res, st1⟩ := p
      simp only
      cases hr : res.result with
      | none => exact ih _ _ hcon
      | some d => exact ih _ _ (contains_add hcon)

theorem runBatch_nil {reg : Registry} {options : ExecutionOptions}
    {ds : DataSet} {st : StatsState} :
    runBatch reg options [] ds st = .ok ([], st) := rfl

theorem runBatch_cons {reg : Registry} {options : ExecutionOptions}
    {u : String} {rest : List String} {ds : DataSet} {st : StatsState} :
    runBatch reg options (u :: rest) ds st =
      match executeBuilder reg u ds options st with
      | .error e => .error e
      | .ok (res, st') =>
        match runBatch reg options rest ds st' with
        | .error e => .error e
        | .ok (results, st'') => .ok (res :: results, st'') := rfl

theorem runBatch_no_t {reg : Registry} {options : ExecutionOptions}
    (hwt : WellTyped reg) {t : String} :
    ∀ (batch : List String) (ds : DataSet) (st : StatsState)
      (results : List StepResult) (st' : StatsState),
    runBatch reg options batch ds st = .ok (results, st') →
    ds.contains t = true →
    ∀ r ∈ results, ∀ d, r.result = some d → d.type ≠ t := by
  intro batch
  induction batch with
  | nil =>
    intro ds st results st' h _hcon r hr
    rw [runBatch_nil] at h
    simp only [Except.ok.injEq, Prod.mk.injEq] at h
    rw [← h.1] at hr
    simp at hr
  | cons u rest ih =>
    intro ds st results st' h hcon r hr d hd
    rw [runBatch_cons] at h
    cases hx : executeBuilder reg u ds options st with
    | error e => simp [hx] at h
    | ok p =>
      obtain ⟨res, st1⟩ := p
      simp only [hx] at h
      cases hrb : runBatch reg options rest ds st1 with
      | error e => simp [hrb] at h
      | ok q =>
        obtain ⟨results', st2⟩ := q
        simp only [hrb, Except.ok.injEq, Prod.mk.injEq] at h
        rw [← h.1] at hr
        rcases List.mem_cons.mp hr with rfl | hr2
        · obtain ⟨hty, hcf⟩ := executeBuilder_result_type hwt hx hd
          rw [hty]
          intro hcon2
          rw [hcon2, hcon] at hcf
          simp at hcf
        · exact ih ds st1 results' st2 hrb hcon r hr2 d hd

theorem foldResults_ne {t : String} :
    ∀ (results : List StepResult) (acc : DataSet),
    (∀ r ∈ results, ∀ d, r.result = some d → d.type ≠ t) →
    (results.foldl
      (fun acc r => match r.result with
        | some d => acc.add d
        | none => acc) acc) t = acc t := by
  intro results
  induction results with
  | nil => intro acc _; rfl
  | cons r rest ih =>
    intro acc hall
    rw [List.foldl_cons]
    cases hr : r.result with
    | none =>
      simp only [hr]
      exact ih acc (fun r2 h2 => hall r2 (List.mem_cons_of_mem _ h2))
    | some d =>
      simp only [hr]
      rw [ih (acc.add d) (fun r2 h2 => hall r2 (List.mem_cons_of_mem _ h2))]
      exact add_ne (Ne.symm (hall r (List.mem_cons_self _ _) d hr))

theorem foldResults_contains {t : String} :
    ∀ (results : List StepResult) (acc : DataSet),
    acc.contains t = true →
    (results.foldl
      (fun acc r => match r.result with
        | some d => acc.add d
        | none => acc) acc).contains t = true := by
  intro results
  induction results with
  | nil => intro acc h; exact h
  | cons r rest ih =>
    intro acc h
    rw [List.foldl_cons]
    cases hr : r.result with
    | none =>
      simp only [hr]
      exact ih acc h
    | some d =>
      simp only [hr]
      exact ih (acc.add d) (contains_add h)

theorem executeBatch_run {reg : Registry} {options : ExecutionOptions}
    {batch : List String} {ds : DataSet} {st : StatsState} :
    executeBatch reg options batch ds st =
      match runBatch reg options batch ds st with
      | .error e => .error e
      | .ok (results, st') =>
        .ok (results.foldl
          (fun acc r => match r.result with
            | some d => acc.add d
            | none => acc) ds, st') := rfl

theorem executeBatch_preserves {reg : Registry} {options : ExecutionOptions}
    (hwt : WellTyped reg) {batch : List String} {ds : DataSet} {st : StatsState}
    {ds' : DataSet} {st' : StatsState} {t : String} {v : Data}
    (h : executeBatch reg options batch ds st = .ok (ds', st'))
    (hv : ds t = some v) : ds' t = some v := by
  rw [executeBatch_run] at h
  cases hrb : runBatch reg options batch ds st with
  | error e => simp [hrb] at h
  | ok q =>
    obtain ⟨results, st1⟩ := q
    simp only [hrb, Except.ok.injEq, Prod.mk.injEq] at h
    rw [← h.1]
    rw [foldResults_ne results ds
      (runBatch_no_t hwt batch ds st results st1 hrb (contains_of_some hv))]
    exact hv

theorem executeBatch_contains {reg : Registry} {options : ExecutionOptions}
    {batch : List String} {ds : DataSet} {st : StatsState}
    {ds' : DataSet} {st' : StatsState} {t : String}
    (h : executeBatch reg options batch ds st = .ok (ds', st'))
    (hcon : ds.contains t = true) : ds'.contains t = true := by
  rw [executeBatch_run] at h
  cases hrb : runBatch reg options batch ds st with
  | error e => simp [hrb] at h
  | ok q =>
    obtain ⟨results, st1⟩ := q
    simp only [hrb, Except.ok.injEq, Prod.mk.injEq] at h
    rw [← h.1]
    exact foldResults_contains results ds hcon

theorem runBatch_indep {reg : Registry} {options : ExecutionOptions}
    {t : String} {b? : Option DataBuilder} :
    ∀ (batch : List String) (ds : DataSet) (st : StatsState),
    ds.contains t = true →
    runBatch (updateReg reg t b?) options batch ds st =
      runBatch reg options batch ds st := by
  intro batch
  induction batch with
  | nil => intro ds st _; rfl
  | cons u rest ih =>
    intro ds st hcon
    rw [runBatch_cons, runBatch_cons, executeBuilder_indep hcon]
    cases hx : executeBuilder reg u ds options st with
    | error e => rfl
    | ok p =>
      obtain ⟨res, st1⟩ := p
      simp only
      rw [ih ds st1 hcon]

theorem executeBatch_indep {reg : Registry} {options : ExecutionOptions}
    {t : String} {b? : Option DataBuilder} {batch : List String}
    {ds : DataSet} {st : StatsState} (hcon : ds.contains t = true) :
    executeBatch (updateReg reg t b?) options batch ds st =
      executeBatch reg options batch ds st := by
  rw [executeBatch_run, executeBatch_run, runBatch_indep batch ds st hcon]

theorem runBatches_nil {reg : Registry} {options : ExecutionOptions}
    {ds : DataSet} {st : StatsState} :
    runBatches reg options [] ds st = .ok (ds, st) := rfl

theorem runBatches_cons {reg : Registry} {options : ExecutionOptions}
    {b : List String} {rest : List (List String)} {ds : DataSet} {st : StatsState} :
    runBatches reg options (b :: rest) ds st =
      match executeBatch reg options b ds st with
      | .error e => .error e
      | .ok (ds', st') => runBatches reg options rest ds' st' := rfl

theorem runBatches_preserves {reg : Registry} {options : ExecutionOptions}
    (hwt : WellTyped reg) {t : String} {v : Data} :
    ∀ (batches : List (List String)) (ds : DataSet) (st : StatsState)
      (ds' : DataSet) (st' : StatsState),
    runBatches reg options batches ds st = .ok (ds', st') →
    ds t = some v → ds' t = some v := by
  intro batches
  induction batches with
  | nil =>
    intro ds st ds' st' h hv
    rw [runBatches_nil] at h
    simp only [Except.ok.injEq, Prod.mk.injEq] at h
    rw [← h.1]
    exact hv
  | cons b rest ih =>
    intro ds st ds' st' h hv
    rw [runBatches_cons] at h
    cases hx : executeBatch reg options b ds st with
    | error e => simp [hx] at h
    | ok p =>
      obtain ⟨ds1, st1⟩ := p
      simp only [hx] at h
      exact ih ds1 st1 ds' st' h (executeBatch_preserves hwt hx hv)

theorem runBatches_indep {reg : Registry} {options : ExecutionOptions}
    {t : String} {b? : Option DataBuilder} :
    ∀ (batches : List (List String)) (ds : DataSet) (st : StatsState),
    ds.contains t = true →
    runBatches (updateReg reg t b?) options batches ds st =
      runBatches reg options batches ds st := by
  intro batches
  induction batches with
  | nil => intro ds st _; rfl
  | cons b rest ih =>
    intro ds st hcon
    rw [runBatches_cons, runBatches_cons, executeBatch_indep hcon]
    cases hx : executeBatch reg options b ds st with
    | error e => rfl
    | ok p =>
      obtain ⟨ds1, st1⟩ := p
      simp only
      exact ih ds1 st1 (executeBatch_contains hx hcon)

theorem executeLevel_preserves {reg : Registry} {options : ExecutionOptions}
    (hwt : WellTyped reg) {level : List String} {ds : DataSet} {st : StatsState}
    {ds' : DataSet} {st' : StatsState} {t : String} {v : Data}
    (h : executeLevel reg options level ds st = .ok (ds', st'))
    (hv : ds t = some v) : ds' t = some v := by
  unfold executeLevel at h
  by_cases hge : effectiveMaxConcurrency options level ≥ level.length
  · rw [if_pos hge] at h
    exact executeBatch_preserves hwt h hv
  · rw [if_neg hge] at h
    exact runBatches_preserves hwt _ ds st ds' st' h hv

theorem executeLevel_contains_aux {reg : Registry} {options : ExecutionOptions}
    {t : String} :
    ∀ (batches : List (List String)) (ds : DataSet) (st : StatsState)
      (ds' : DataSet) (st' : StatsState),
    runBatches reg options batches ds st = .ok (ds', st') →
    ds.contains t = true → ds'.contains t = true := by
  intro batches
  induction batches with
  | nil =>
    intro ds st ds' st' h hcon
    rw [runBatches_nil] at h
    simp only [Except.ok.injEq, Prod.mk.injEq] at h
    rw [← h.1]
    exact hcon
  | cons b rest ih =>
    intro ds st ds' st' h hcon
    rw [runBatches_cons] at h
    cases hx : executeBatch reg options b ds st with
    | error e => simp [hx] at h
    | ok p =>
      obtain ⟨ds1, st1⟩ := p
      simp only [hx] at h
      exact ih ds1 st1 ds' st' h (executeBatch_contains hx hcon)

theorem executeLevel_contains {reg : Registry} {options : ExecutionOptions}
    {level : List String} {ds : DataSet} {st : StatsState}
    {ds' : DataSet} {st' : StatsState} {t : String}
    (h : executeLevel reg options level ds st = .ok (ds', st'))
    (hcon : ds.contains t = true) : ds'.contains t = true := by
  unfold executeLevel at h
  by_cases hge : effectiveMaxConcurrency options level ≥ level.length
  · rw [if_pos hge] at h
    exact executeBatch_contains h hcon
  · rw [if_neg hge] at h
    exact executeLevel_contains_aux _ ds st ds' st' h hcon

theorem executeLevel_indep {reg : Registry} {options : ExecutionOptions}
    {t : String} {b? : Option DataBuilder} {level : List String}
    {ds : DataSet} {st : StatsState} (hcon : ds.contains t = true) :
    executeLevel (updateReg reg t b?) options level ds st =
      executeLevel reg options level ds st := by
  unfold executeLevel
  by_cases hge : effectiveMaxConcurrency options level ≥ level.length
  · rw [if_pos hge, if_pos hge, executeBatch_indep hcon]
  · rw [if_neg hge, if_neg hge, runBatches_indep _ ds st hcon]

theorem runLevels_nil {reg : Registry} {options : ExecutionOptions}
    {ds : DataSet} {st : StatsState} :
    runLevels reg options [] ds st = .ok (ds, st) := rfl

theorem runLevels_cons {reg : Registry} {options : ExecutionOptions}
    {level : List String} {rest : List (List String)} {ds : DataSet}
    {st : StatsState} :
    runLevels reg options (level :: rest) ds st =
      match executeLevel reg options level ds st with
      | .error e => .error e
      | .ok (ds', st') => runLevels reg options rest ds' st' := rfl

theorem runLevels_preserves {reg : Registry} {options : ExecutionOptions}
    (hwt : WellTyped reg) {t : String} {v : Data} :
    ∀ (levels : List (List String)) (ds : DataSet) (st : StatsState)
      (ds' : DataSet) (st' : StatsState),
    runLevels reg options levels ds st = .ok (ds', st') →
    ds t = some v → ds' t = some v := by
  intro levels
  induction levels with
  | nil =>
    intro ds st ds' st' h hv
    rw [runLevels_nil] at h
    simp only [Except.ok.injEq, Prod.mk.injEq] at h
    rw [← h.1]
    exact hv
  | cons lv rest ih =>
    intro ds st ds' st' h hv
    rw [runLevels_cons] at h
    cases hx : executeLevel reg options lv ds st with
    | error e => simp [hx] at h
    | ok p =>
      obtain ⟨ds1, st1⟩ := p
      simp only [hx] at h
      exact ih ds1 st1 ds' st' h (executeLevel_preserves hwt hx hv)

theorem runLevels_indep {reg : Registry} {options : ExecutionOptions}
    {t : String} {b? : Option DataBuilder} :
    ∀ (levels : List (List String)) (ds : DataSet) (st : StatsState),
    ds.contains t = true →
    runLevels (updateReg reg t b?) options levels ds st =
      runLevels reg options levels ds st := by
  intro levels
  induction levels with
  | nil => intro ds st _; rfl
  | cons lv rest ih =>
    intro ds st hcon
    rw [runLevels_cons, runLevels_cons, executeLevel_indep hcon]
    cases hx : executeLevel reg options lv ds st with
    | error e => rfl
    | ok p =>
      obtain ⟨ds1, st1⟩ := p
      simp only
      exact ih ds1 st1 (executeLevel_contains hx hcon)

theorem cloneDataSet_impl {ds : DataSet} : cloneDataSet (.impl ds) = ds := rfl

theorem mem_join_head {α : Type} {x : α} {b : List α} {rest : List (List α)}
    (h : x ∈ b) : x ∈ (b :: rest).join :=
  List.mem_join.mpr ⟨b, List.mem_cons_self _ _, h⟩

theorem mem_join_tail {α : Type} {x : α} {b : List α} {rest : List (List α)}
    (h : x ∈ rest.join) : x ∈ (b :: rest).join := by
  obtain ⟨l, hl, hx⟩ := List.mem_join.mp h
  exact List.mem_join.mpr ⟨l, List.mem_cons_of_mem _ hl, hx⟩

theorem mem_join_cons_elim {α : Type} {x : α} {b : List α} {rest : List (List α)}
    (h : x ∈ (b :: rest).join) : x ∈ b ∨ x ∈ rest.join := by
  obtain ⟨l, hl, hx⟩ := List.mem_join.mp h
  rcases List.mem_cons.mp hl with rfl | hl2
  · exact Or.inl hx
  · exact Or.inr (List.mem_join.mpr ⟨l, hl2, hx⟩)

theorem chunkBatches_join {c : Nat} (hc : c ≠ 0) :
    ∀ (fuel : Nat) (l : List String), l.length ≤ fuel →
    (chunkBatches c fuel l).join = l := by
  intro fuel
  induction fuel with
  | zero =>
    intro l hl
    have hnil : l = [] := List.eq_nil_of_length_eq_zero (Nat.le_zero.mp hl)
    subst hnil
    rfl
  | succ f ih =>
    intro l hl
    cases l with
    | nil => rfl
    | cons x xs =>
      have hdl : ((x :: xs).drop c).length ≤ f := by
        have hc1 : 1 ≤ c := Nat.one_le_iff_ne_zero.mpr hc
        simp only [List.length_drop, List.length_cons] at hl ⊢
        omega
      calc (chunkBatches c (f + 1) (x :: xs)).join
          = (x :: xs).take c ++ (chunkBatches c f ((x :: xs).drop c)).join := rfl
        _ = (x :: xs).take c ++ (x :: xs).drop c := by rw [ih _ hdl]
        _ = x :: xs := List.take_append_drop _ _

theorem effectiveMaxConcurrency_ne_zero {options : ExecutionOptions}
    {level : List String}
    (h : ¬ effectiveMaxConcurrency options level ≥ level.length) :
    effectiveMaxConcurrency options level ≠ 0 := by
  intro h0
  apply h
  unfold effectiveMaxConcurrency at h0 ⊢
  cases hmc : options.maxConcurrency with
  | none => exact Nat.le_refl _
  | some c =>
    rw [hmc] at h0
    show (if c ≠ 0 then c else level.length) ≥ level.length
    have h0' : (if c ≠ 0 then c else level.length) = 0 := h0
    by_cases hcz : c ≠ 0
    · rw [if_pos hcz] at h0'
      exact absurd h0' hcz
    · rw [if_neg hcz]

theorem throwStep_fails {reg : Registry} {options : ExecutionOptions}
    {t msg : String} {b : DataBuilder}
    (hto : options.builderTimeout = none) (hreg : reg t = some b)
    (hthrow : ∀ ds, (b.build ds).outcome = .thrown msg)
    (hce : options.continueOnError = false) :
    StepFails reg options t (.builderExecutionError b.name t (.plainError msg)) := by
  intro ds st hc
  rw [executeBuilder_run hc hreg, awaitWithTimeout_none hto, hthrow ds]
  simp [outcomeToExcept, hce]

theorem throwStep_noContribution {reg : Registry} {options : ExecutionOptions}
    {t msg : String} {b : DataBuilder}
    (hto : options.builderTimeout = none) (hreg : reg t = some b)
    (hthrow : ∀ ds, (b.build ds).outcome = .thrown msg)
    (hce : options.continueOnError = true) :
    StepNoContribution reg options t := by
  intro ds st hc
  rw [executeBuilder_run hc hreg, awaitWithTimeout_none hto, hthrow ds]
  simp [outcomeToExcept, hce]

theorem missingStep_fails {reg : Registry} {options : ExecutionOptions}
    {t : String} (hreg : reg t = none) :
    StepFails reg options t
      (.plainError ("No builder found for data type: " ++ t)) :=
  fun _ _ hc => executeBuilder_noBuilder hc hreg

theorem runSequential_fails {reg : Registry} {options : ExecutionOptions}
    {t : String} {e : RunError} (hf : StepFails reg options t e) :
    ∀ (order : List String) (ds : DataSet) (st : StatsState),
    ds.contains t = false → t ∈ order →
    (∀ u ∈ order, u ≠ t → StepSucceeds reg options u) →
    runSequential reg options order ds st = .error e := by
  intro order
  induction order with
  | nil => intro ds st _ hmem _; simp at hmem
  | cons u rest ih =>
    intro ds st hc hmem hsucc
    by_cases hu : u = t
    · rw [runSequential_cons, hu, hf ds st hc]
    · obtain ⟨p, hp, hty⟩ := hsucc u (List.mem_cons_self _ _) hu ds st
      rw [runSequential_cons, hp]
      obtain ⟨res, st1⟩ := p
      simp only
      have hmem' : t ∈ rest := by
        rcases List.mem_cons.mp hmem with h | h
        · exact absurd h.symm hu
        · exact h
      cases hr : res.result with
      | none =>
        simp only [hr]
        exact ih ds st1 hc hmem' (fun w hw => hsucc w (List.mem_cons_of_mem _ hw))
      | some d =>
        simp only [hr]
        have hne : t ≠ d.type := by
          rw [hty d hr]
          exact fun hcon => hu hcon.symm
        have hc' : (ds.add d).contains t = false := by
          simp only [DataSet.contains] at hc ⊢
          rw [add_ne hne]
          exact hc
        exact ih _ st1 hc' hmem' (fun w hw => hsucc w (List.mem_cons_of_mem _ hw))

theorem runSequential_ok_mixed {reg : Registry} {options : ExecutionOptions}
    {t : String} :
    ∀ (order : List String) (ds : DataSet) (st : StatsState),
    ds.contains t = false →
    (∀ u ∈ order, (u = t → StepNoContribution reg options t) ∧
      (u ≠ t → StepSucceeds reg options u)) →
    ∃ ds' st', runSequential reg options order ds st = .ok (ds', st') ∧
      ds' t = ds t := by
  intro order
  induction order with
  | nil => intro ds st _ _; exact ⟨ds, st, rfl, rfl⟩
  | cons u rest ih =>
    intro ds st hc hmix
    by_cases hu : u = t
    · have hstep := (hmix u (List.mem_cons_self _ _)).1 hu ds st hc
      obtain ⟨ds', st', hrun, heq⟩ :=
        ih ds st hc (fun w hw => hmix w (List.mem_cons_of_mem _ hw))
      refine ⟨ds', st', ?_, heq⟩
      rw [runSequential_cons, hu, hstep]
      exact hrun
    · obtain ⟨p, hp, hty⟩ := (hmix u (List.mem_cons_self _ _)).2 hu ds st
      obtain ⟨res, st1⟩ := p
      cases hr : res.result with
      | none =>
        obtain ⟨ds', st', hrun, heq⟩ :=
          ih ds st1 hc (fun w hw => hmix w (List.mem_cons_of_mem _ hw))
        refine ⟨ds', st', ?_, heq⟩
        rw [runSequential_cons, hp]
        simp only [hr]
        exact hrun
      | some d =>
        have hne : t ≠ d.type := by
          rw [hty d hr]
          exact fun hcon => hu hcon.symm
        have hc' : (ds.add d).contains t = false := by
          simp only [DataSet.contains] at hc ⊢
          rw [add_ne hne]
          exact hc
        obtain ⟨ds', st', hrun, heq⟩ :=
          ih (ds.add d) st1 hc' (fun w hw => hmix w (List.mem_cons_of_mem _ hw))
        refine ⟨ds', st', ?_, heq.trans (add_ne hne)⟩
        rw [runSequential_cons, hp]
        simp only [hr]
        exact hrun

theorem runBatch_fails {reg : Registry} {options : ExecutionOptions}
    {t : String} {e : RunError} (hf : StepFails reg options t e) :
    ∀ (batch : List String) (ds : DataSet) (st : StatsState),
    ds.contains t = false → t ∈ batch →
    (∀ u ∈ batch, u ≠ t → StepSucceeds reg options u) →
    runBatch reg options batch ds st = .error e := by
  intro batch
  induction batch with
  | nil => intro ds st _ hmem _; simp at hmem
  | cons u rest ih =>
    intro ds st hc hmem hsucc
    by_cases hu : u = t
    · rw [runBatch_cons, hu, hf ds st hc]
    · obtain ⟨p, hp, _⟩ := hsucc u (List.mem_cons_self _ _) hu ds st
      rw [runBatch_cons, hp]
      obtain ⟨res, st1⟩ := p
      simp only
      have hmem' : t ∈ rest := by
        rcases List.mem_cons.mp hmem with h | h
        · exact absurd h.symm hu
        · exact h
      rw [ih ds st1 hc hmem' (fun w hw => hsucc w (List.mem_cons_of_mem _ hw))]

theorem runBatch_ok_mixed {reg : Registry} {options : ExecutionOptions}
    {t : String} :
    ∀ (batch : List String) (ds : DataSet) (st : StatsState),
    ds.contains t = false →
    (∀ u ∈ batch, (u = t → StepNoContribution reg options t) ∧
      (u ≠ t → StepSucceeds reg options u)) →
    ∃ results st', runBatch reg options batch ds st = .ok (results, st') ∧
      ∀ r ∈ results, ∀ d, r.result = some d → d.type ≠ t := by
  intro batch
  induction batch with
  | nil =>
    intro ds st _ _
    exact ⟨[], st, rfl, by intro r hr; simp at hr⟩
  | cons u rest ih =>
    intro ds st hc hmix
    by_cases hu : u = t
    · have hstep := (hmix u (List.mem_cons_self _ _)).1 hu ds st hc
      obtain ⟨results, st2, hrun, htys⟩ :=
        ih ds st hc (fun w hw => hmix w (List.mem_cons_of_mem _ hw))
      refine ⟨⟨t, false, none, 0⟩ :: results, st2, ?_, ?_⟩
      · rw [runBatch_cons, hu, hstep]
        simp only
        rw [hrun]
      · intro r hr d hd
        rcases List.mem_cons.mp hr with rfl | hr2
        · simp at hd
        · exact htys r hr2 d hd
    · obtain ⟨p, hp, hty⟩ := (hmix u (List.mem_cons_self _ _)).2 hu ds st
      obtain ⟨res, st1⟩ := p
      obtain ⟨results, st2, hrun, htys⟩ :=
        ih ds st1 hc (fun w hw => hmix w (List.mem_cons_of_mem _ hw))
      refine ⟨res :: results, st2, ?_, ?_⟩
      · rw [runBatch_cons, hp]
        simp only
        rw [hrun]
      · intro r hr d hd
        rcases List.mem_cons.mp hr with rfl | hr2
        · rw [hty d hd]
          exact hu
        · exact htys r hr2 d hd

theorem executeBatch_fails {reg : Registry} {options : ExecutionOptions}
    {t : String} {e : RunError} (hf : StepFails reg options t e)
    {batch : List String} {ds : DataSet} {st : StatsState}
    (hc : ds.contains t = false) (hmem : t ∈ batch)
    (hsucc : ∀ u ∈ batch, u ≠ t → StepSucceeds reg options u) :
    executeBatch reg options batch ds st = .error e := by
  rw [executeBatch_run, runBatch_fails hf batch ds st hc hmem hsucc]

theorem executeBatch_ok_mixed {reg : Registry} {options : ExecutionOptions}
    {t : String} {batch : List String} {ds : DataSet} {st : StatsState}
    (hc : ds.contains t = false)
    (hmix : ∀ u ∈ batch, (u = t → StepNoContribution reg options t) ∧
      (u ≠ t → StepSucceeds reg options u)) :
    ∃ ds' st', executeBatch reg options batch ds st = .ok (ds', st') ∧
      ds' t = ds t := by
  obtain ⟨results, st2, hrun, htys⟩ := runBatch_ok_mixed batch ds st hc hmix
  refine ⟨results.foldl
      (fun acc r => match r.result with
        | some d => acc.add d
        | none => acc) ds, st2, ?_, foldResults_ne results ds htys⟩
  rw [executeBatch_run, hrun]

theorem runBatches_fails {reg : Registry} {options : ExecutionOptions}
    {t : String} {e : RunError} (hf : StepFails reg options t e) :
    ∀ (batches : List (List String)) (ds : DataSet) (st : StatsState),
    ds.contains t = false → t ∈ batches.join →
    (∀ u ∈ batches.join, u ≠ t → StepSucceeds reg options u) →
    runBatches reg options batches ds st = .error e := by
  intro batches
  induction batches with
  | nil => intro ds st _ hmem _; simp [List.join] at hmem
  | cons b rest ih =>
    intro ds st hc hmem hsucc
    by_cases hb : t ∈ b
    · rw [runBatches_cons,
        executeBatch_fails hf hc hb (fun u hu hut => hsucc u (mem_join_head hu) hut)]
    · have hmix : ∀ u ∈ b, (u = t → StepNoContribution reg options t) ∧
          (u ≠ t → StepSucceeds reg options u) := by
        intro u hu
        refine ⟨fun hut => absurd (hut ▸ hu) hb, fun hut => hsucc u (mem_join_head hu) hut⟩
      obtain ⟨ds1, st1, hbb, heq1⟩ := executeBatch_ok_mixed hc hmix
      have hc1 : ds1.contains t = false := by
        simp only [DataSet.contains] at hc ⊢
        rw [heq1]
        exact hc
      have hmem' : t ∈ rest.join := by
        rcases mem_join_cons_elim hmem with h | h
        · exact absurd h hb
        · exact h
      rw [runBatches_cons, hbb]
      exact ih ds1 st1 hc1 hmem' (fun u hu hut => hsucc u (mem_join_tail hu) hut)

theorem runBatches_ok_mixed {reg : Registry} {options : ExecutionOptions}
    {t : String} :
    ∀ (batches : List (List String)) (ds : DataSet) (st : StatsState),
    ds.contains t = false →
    (∀ u ∈ batches.join, (u = t → StepNoContribution reg options t) ∧
      (u ≠ t → StepSucceeds reg options u)) →
    ∃ ds' st', runBatches reg options batches ds st = .ok (ds', st') ∧
      ds' t = ds t := by
  intro batches
  induction batches with
  | nil => intro ds st _ _; exact ⟨ds, st, rfl, rfl⟩
  | cons b rest ih =>
    intro ds st hc hmix
    obtain ⟨ds1, st1, hbb, heq1⟩ :=
      executeBatch_ok_mixed hc (fun u hu => hmix u (mem_join_head hu))
    have hc1 : ds1.contains t = false := by
      simp only [DataSet.contains] at hc ⊢
      rw [heq1]
      exact hc
    obtain ⟨ds', st', hr, heq⟩ :=
      ih ds1 st1 hc1 (fun u hu => hmix u (mem_join_tail hu))
    refine ⟨ds', st', ?_, heq.trans heq1⟩
    rw [runBatches_cons, hbb]
    exact hr

theorem executeLevel_fails {reg : Registry} {options : ExecutionOptions}
    {t : String} {e : RunError} (hf : StepFails reg options t e)
    {level : List String} {ds : DataSet} {st : StatsState}
    (hc : ds.contains t = false) (hmem : t ∈ level)
    (hsucc : ∀ u ∈ level, u ≠ t → StepSucceeds reg options u) :
    executeLevel reg options level ds st = .error e := by
  unfold executeLevel
  by_cases hge : effectiveMaxConcurrency options level ≥ level.length
  · rw [if_pos hge]
    exact executeBatch_fails hf hc hmem hsucc
  · rw [if_neg hge]
    have hjoin : (chunkBatches (effectiveMaxConcurrency options level)
        level.length level).join = level :=
      chunkBatches_join (effectiveMaxConcurrency_ne_zero hge) level.length level
        (Nat.le_refl _)
    exact runBatches_fails hf _ ds st hc (by rw [hjoin]; exact hmem)
      (by rw [hjoin]; exact hsucc)

theorem executeLevel_ok_mixed {reg : Registry} {options : ExecutionOptions}
    {t : String} {level : List String} {ds : DataSet} {st : StatsState}
    (hc : ds.contains t = false)
    (hmix : ∀ u ∈ level, (u = t → StepNoContribution reg options t) ∧
      (u ≠ t → StepSucceeds reg options u)) :
    ∃ ds' st', executeLevel reg options level ds st = .ok (ds', st') ∧
      ds' t = ds t := by
  unfold executeLevel
  by_cases hge : effectiveMaxConcurrency options level ≥ level.length
  · rw [if_pos hge]
    exact executeBatch_ok_mixed hc hmix
  · rw [if_neg hge]
    have hjoin : (chunkBatches (effectiveMaxConcurrency options level)
        level.length level).join = level :=
      chunkBatches_join (effectiveMaxConcurrency_ne_zero hge) level.length level
        (Nat.le_refl _)
    exact runBatches_ok_mixed _ ds st hc (fun u hu => hmix u (hjoin ▸ hu))

theorem runLevels_fails {reg : Registry} {options : ExecutionOptions}
    {t : String} {e : RunError} (hf : StepFails reg options t e) :
    ∀ (levels : List (List String)) (ds : DataSet) (st : StatsState),
    ds.contains t = false → t ∈ levels.join →
    (∀ u ∈ levels.join, u ≠ t → StepSucceeds reg options u) →
    runLevels reg options levels ds st = .error e := by
  intro levels
  induction levels with
  | nil => intro ds st _ hmem _; simp [List.join] at hmem
  | cons lv rest ih =>
    intro ds st hc hmem hsucc
    by_cases hlv : t ∈ lv
    · rw [runLevels_cons,
        executeLevel_fails hf hc hlv (fun u hu hut => hsucc u (mem_join_head hu) hut)]
    · have hmix : ∀ u ∈ lv, (u = t → StepNoContribution reg options t) ∧
          (u ≠ t → StepSucceeds reg options u) := by
        intro u hu
        refine ⟨fun hut => absurd (hut ▸ hu) hlv,
          fun hut => hsucc u (mem_join_head hu) hut⟩
      obtain ⟨ds1, st1, hlvr, heq1⟩ := executeLevel_ok_mixed hc hmix
      have hc1 : ds1.contains t = false := by
        simp only [DataSet.contains] at hc ⊢
        rw [heq1]
        exact hc
      have hmem' : t ∈ rest.join := by
        rcases mem_join_cons_elim hmem with h | h
        · exact absurd h hlv
        · exact h
      rw [runLevels_cons, hlvr]
      exact ih ds1 st1 hc1 hmem' (fun u hu hut => hsucc u (mem_join_tail hu) hut)

theorem runLevels_ok_mixed {reg : Registry} {options : ExecutionOptions}
    {t : String} :
    ∀ (levels : List (List String)) (ds : DataSet) (st : StatsState),
    ds.contains t = false →
    (∀ u ∈ levels.join, (u = t → StepNoContribution reg options t) ∧
      (u ≠ t → StepSucceeds reg options u)) →
    ∃ ds' st', runLevels reg options levels ds st = .ok (ds', st') ∧
      ds' t = ds t := by
  intro levels
  induction levels with
  | nil => intro ds st _ _; exact ⟨ds, st, rfl, rfl⟩
  | cons lv rest ih =>
    intro ds st hc hmix
    obtain ⟨ds1, st1, hlvr, heq1⟩ :=
      executeLevel_ok_mixed hc (fun u hu => hmix u (mem_join_head hu))
    have hc1 : ds1.contains t = false := by
      simp only [DataSet.contains] at hc ⊢
      rw [heq1]
      exact hc
    obtain ⟨ds', st', hr, heq⟩ :=
      ih ds1 st1 hc1 (fun u hu => hmix u (mem_join_tail hu))
    refine ⟨ds', st', ?_, heq.trans heq1⟩
    rw [runLevels_cons, hlvr]
    exact hr

/-- C4: skip semantics.  For any run under either strategy and any type
`t`: whenever the working dataset already contains `t` at the start of its
per-builder step, the step returns the skip result and bumps the
collector's skip count by one, for every registry (so no builder is
consulted, let alone invoked); moreover, for a well-typed registry, a
value stored under `t` in the initial dataset is present unchanged in the
result dataset of either strategy, and the whole run is unaffected by
replacing or removing the registry entry for `t`. -/
theorem C4_skip_semantics (reg : Registry) (options : ExecutionOptions)
    (t : String) (hwt : WellTyped reg) :
    (∀ (reg' : Registry) (ds : DataSet) (st : StatsState),
      ds.contains t = true →
      executeBuilder reg' t ds options st =
        .ok (⟨t, true, none, 0⟩, recordSkippedBuilder st) ∧
      (recordSkippedBuilder st).skipCount = st.skipCount + 1) ∧
    (∀ (init : DataSet) (plan : ExecutionPlan) (v : Data) (res : ExecutionResult),
      init t = some v →
      SequentialExecutionStrategy.execute reg (.impl init) plan options = .ok res →
      res.dataSet t = some v) ∧
    (∀ (init : DataSet) (plan : ExecutionPlan) (b? : Option DataBuilder),
      init.contains t = true →
      SequentialExecutionStrategy.execute (updateReg reg t b?) (.impl init) plan
          options =
        SequentialExecutionStrategy.execute reg (.impl init) plan options) ∧
    (∀ (init : DataSet) (plan : ExecutionPlan) (v : Data) (res : ExecutionResult),
      init t = some v →
      ParallelExecutionStrategy.execute reg (.impl init) plan options = .ok res →
      res.dataSet t = some v) ∧
    (∀ (init : DataSet) (plan : ExecutionPlan) (b? : Option DataBuilder),
      init.contains t = true →
      ParallelExecutionStrategy.execute (updateReg reg t b?) (.impl init) plan
          options =
        ParallelExecutionStrategy.execute reg (.impl init) plan options) := by
  refine ⟨?_, ?_, ?_, ?_, ?_⟩
  · intro reg' ds st hc
    exact ⟨executeBuilder_skip hc, rfl⟩
  · intro init plan v res hv hexec
    unfold SequentialExecutionStrategy.execute at hexec
    rw [cloneDataSet_impl] at hexec
    cases hrun : runSequential reg options plan.executionOrder init ⟨[], 0, 0⟩ with
    | error e =>
      rw [hrun] at hexec
      exact Except.noConfusion hexec
    | ok q =>
      obtain ⟨ds', st'⟩ := q
      rw [hrun] at hexec
      injection hexec with h
      rw [← h]
      exact runSequential_preserves hwt plan.executionOrder init ⟨[], 0, 0⟩ ds' st'
        hv hrun
  · intro init plan b? hcon
    unfold SequentialExecutionStrategy.execute
    rw [cloneDataSet_impl,
      runSequential_indep plan.executionOrder init ⟨[], 0, 0⟩ hcon]
  · intro init plan v res hv hexec
    unfold ParallelExecutionStrategy.execute at hexec
    rw [cloneDataSet_impl] at hexec
    cases hrun : runLevels reg options plan.parallelExecutionLevels init
        ⟨[], 0, 0⟩ with
    | error e =>
      rw [hrun] at hexec
      exact Except.noConfusion hexec
    | ok q =>
      obtain ⟨ds', st'⟩ := q
      rw [hrun] at hexec
      injection hexec with h
      rw [← h]
      exact runLevels_preserves hwt plan.parallelExecutionLevels init ⟨[], 0, 0⟩
        ds' st' hrun hv
  · intro init plan b? hcon
    unfold ParallelExecutionStrategy.execute
    rw [cloneDataSet_impl,
      runLevels_indep plan.parallelExecutionLevels init ⟨[], 0, 0⟩ hcon]

/-- C5: a throwing builder.  If the registered builder for `t` throws on
every input, `t` occurs in the plan, the initial dataset does not contain
`t`, and every other step of the plan resolves, then (with no per-builder
timeout configured) a run of either strategy with `continueOnError = false`
rejects with a `BuilderExecutionError` carrying the failing builder's name,
the target type and the thrown cause, while with `continueOnError = true`
the run completes successfully with `t` omitted from the result dataset. -/
theorem C5_builder_throw (reg : Registry) (plan : ExecutionPlan)
    (init : DataSet) (t msg : String) (b : DataBuilder)
    (hreg : reg t = some b)
    (hthrow : ∀ ds, (b.build ds).outcome = .thrown msg)
    (hinit : init.contains t = false)
    (hseqmem : t ∈ plan.executionOrder)
    (hparmem : t ∈ plan.parallelExecutionLevels.join)
    (hseqsucc : ∀ o : ExecutionOptions, o.builderTimeout = none →
      ∀ u ∈ plan.executionOrder, u ≠ t → StepSucceeds reg o u)
    (hparsucc : ∀ o : ExecutionOptions, o.builderTimeout = none →
      ∀ u ∈ plan.parallelExecutionLevels.join, u ≠ t → StepSucceeds reg o u) :
    ∀ o : ExecutionOptions, o.builderTimeout = none →
      (o.continueOnError = false →
        SequentialExecutionStrategy.execute reg (.impl init) plan o =
          .error (.builderExecutionError b.name t (.plainError msg)) ∧
        ParallelExecutionStrategy.execute reg (.impl init) plan o =
          .error (.builderExecutionError b.name t (.plainError msg))) ∧
      (o.continueOnError = true →
        (∃ res, SequentialExecutionStrategy.execute reg (.impl init) plan o =
            .ok res ∧ res.dataSet.contains t = false) ∧
        (∃ res, ParallelExecutionStrategy.execute reg (.impl init) plan o =
            .ok res ∧ res.dataSet.contains t = false)) := by
  intro o hto
  constructor
  · intro hce
    have hf := throwStep_fails hto hreg hthrow hce
    constructor
    · unfold SequentialExecutionStrategy.execute
      rw [cloneDataSet_impl,
        runSequential_fails hf plan.executionOrder init ⟨[], 0, 0⟩ hinit hseqmem
          (hseqsucc o hto)]
    · unfold ParallelExecutionStrategy.execute
      rw [cloneDataSet_impl,
        runLevels_fails hf plan.parallelExecutionLevels init ⟨[], 0, 0⟩ hinit
          hparmem (hparsucc o hto)]
  · intro hce
    have hnc := throwStep_noContribution hto hreg hthrow hce
    constructor
    · obtain ⟨ds', st', hrun, heq⟩ :=
        runSequential_ok_mixed plan.executionOrder init ⟨[], 0, 0⟩ hinit
          (fun u hu => ⟨fun _ => hnc, fun hut => hseqsucc o hto u hu hut⟩)
      refine ⟨⟨ds', plan.executionOrder, st'⟩, ?_, ?_⟩
      · unfold SequentialExecutionStrategy.execute
        rw [cloneDataSet_impl, hrun]
      · show ds'.contains t = false
        simp only [DataSet.contains] at hinit ⊢
        rw [heq]
        exact hinit
    · obtain ⟨ds', st', hrun, heq⟩ :=
        runLevels_ok_mixed plan.parallelExecutionLevels init ⟨[], 0, 0⟩ hinit
          (fun u hu => ⟨fun _ => hnc, fun hut => hparsucc o hto u hu hut⟩)
      refine ⟨⟨ds', plan.executionOrder, st'⟩, ?_, ?_⟩
      · unfold ParallelExecutionStrategy.execute
        rw [cloneDataSet_impl, hrun]
      · show ds'.contains t = false
        simp only [DataSet.contains] at hinit ⊢
        rw [heq]
        exact hinit

/-- C10: missing builder at execution time.  If the registry has no entry
for a type `t` of the plan and the working dataset does not already
contain `t`, the per-builder step rejects with the plain
`No builder found` `Error` (not a `BuilderExecutionError`), and — because
that throw happens outside the try block — a run of either strategy
rejects with that very error for every `ExecutionOptions`, including
`continueOnError = true`. -/
theorem C10_missing_builder_rejects (reg : Registry) (options : ExecutionOptions)
    (plan : ExecutionPlan) (init : DataSet) (t : String)
    (hreg : reg t = none)
    (hinit : init.contains t = false)
    (hseqmem : t ∈ plan.executionOrder)
    (hparmem : t ∈ plan.parallelExecutionLevels.join)
    (hseqsucc : ∀ u ∈ plan.executionOrder, u ≠ t → StepSucceeds reg options u)
    (hparsucc : ∀ u ∈ plan.parallelExecutionLevels.join, u ≠ t →
      StepSucceeds reg options u) :
    (∀ (ds : DataSet) (st : StatsState), ds.contains t = false →
      executeBuilder reg t ds options st =
        .error (.plainError ("No builder found for data type: " ++ t))) ∧
    SequentialExecutionStrategy.execute reg (.impl init) plan options =
      .error (.plainError ("No builder found for data type: " ++ t)) ∧
    ParallelExecutionStrategy.execute reg (.impl init) plan options =
      .error (.plainError ("No builder found for data type: " ++ t)) := by
  have hf : StepFails reg options t
      (.plainError ("No builder found for data type: " ++ t)) :=
    missingStep_fails hreg
  refine ⟨fun ds st hc => hf ds st hc, ?_, ?_⟩
  · unfold SequentialExecutionStrategy.execute
    rw [cloneDataSet_impl,
      runSequential_fails hf plan.executionOrder init ⟨[], 0, 0⟩ hinit hseqmem
        hseqsucc]
  · unfold ParallelExecutionStrategy.execute
    rw [cloneDataSet_impl,
      runLevels_fails hf plan.parallelExecutionLevels init ⟨[], 0, 0⟩ hinit
        hparmem hparsucc]

/-- A builder that resolves with a value of its own type. -/
def okBuilder (t : String) (v : Nat) : DataBuilder where
  name := "Builder" ++ t
  build := fun _ => ⟨1, .ok (some ⟨t, v⟩)⟩

/-- A builder whose `build` always throws. -/
def throwingBuilder (t msg : String) : DataBuilder where
  name := "Builder" ++ t
  build := fun _ => ⟨1, .thrown msg⟩

/-- A concrete registry: a normal builder for `A`, a throwing builder for
`B`, nothing else. -/
def wreg : Registry := fun u =>
  if u = "A" then some (okBuilder "A" 42)
  else if u = "B" then some (throwingBuilder "B" "boom") else none

theorem wreg_wellTyped : WellTyped wreg := by
  intro u b hb ds d hd
  unfold wreg at hb
  by_cases hA : u = "A"
  · rw [if_pos hA] at hb
    injection hb with hb2
    rw [← hb2] at hd
    injection hd with hd2
    injection hd2 with hd3
    rw [← hd3]
    exact hA.symm
  · rw [if_neg hA] at hb
    by_cases hB : u = "B"
    · rw [if_pos hB] at hb
      injection hb with hb2
      rw [← hb2] at hd
      exact BuildOutcome.noConfusion hd
    · rw [if_neg hB] at hb
      exact Option.noConfusion hb

theorem okBuilder_stepSucceeds {reg : Registry} {o : ExecutionOptions}
    {u : String} {v : Nat} (hto : o.builderTimeout = none)
    (hreg : reg u = some (okBuilder u v)) : StepSucceeds reg o u := by
  intro ds st
  by_cases hc : ds.contains u
  · refine ⟨(⟨u, true, none, 0⟩, recordSkippedBuilder st),
      executeBuilder_skip hc, ?_⟩
    intro d hd
    exact Option.noConfusion hd
  · have hc' : ds.contains u = false := by simpa using hc
    refine ⟨(⟨u, false, some ⟨u, v⟩, 1⟩, recordBuilderExecution st u 1), ?_, ?_⟩
    · rw [executeBuilder_run hc' hreg, awaitWithTimeout_none hto]
      rfl
    · intro d hd
      injection hd with hd2
      rw [← hd2]

/-- A valid two-step plan: `A` then the throwing `B`. -/
def wplan : ExecutionPlan where
  executionOrder := ["A", "B"]
  parallelExecutionLevels := [["A"], ["B"]]
  missingBuilders := []
  cycles := []
  isValid := true
  totalBuilders := 2
  maxConcurrency := 1
  dependencyGraph := []

/-- A plan mentioning a type `C` for which `wreg` has no builder. -/
def wplanMissing : ExecutionPlan where
  executionOrder := ["A", "C"]
  parallelExecutionLevels := [["A"], ["C"]]
  missingBuilders := ["C"]
  cycles := []
  isValid := false
  totalBuilders := 2
  maxConcurrency := 1
  dependencyGraph := []

/-- Witness for C4 at the concrete registry `wreg`, type `A`. -/
theorem C4_skip_semantics_witness :
    WellTyped wreg ∧
    ((∀ (reg' : Registry) (ds : DataSet) (st : StatsState),
      ds.contains "A" = true →
      executeBuilder reg' "A" ds ⟨none, none, false⟩ st =
        .ok (⟨"A", true, none, 0⟩, recordSkippedBuilder st) ∧
      (recordSkippedBuilder st).skipCount = st.skipCount + 1) ∧
    (∀ (init : DataSet) (plan : ExecutionPlan) (v : Data) (res : ExecutionResult),
      init "A" = some v →
      SequentialExecutionStrategy.execute wreg (.impl init) plan
          ⟨none, none, false⟩ = .ok res →
      res.dataSet "A" = some v) ∧
    (∀ (init : DataSet) (plan : ExecutionPlan) (b? : Option DataBuilder),
      init.contains "A" = true →
      SequentialExecutionStrategy.execute (updateReg wreg "A" b?) (.impl init)
          plan ⟨none, none, false⟩ =
        SequentialExecutionStrategy.execute wreg (.impl init) plan
          ⟨none, none, false⟩) ∧
    (∀ (init : DataSet) (plan : ExecutionPlan) (v : Data) (res : ExecutionResult),
      init "A" = some v →
      ParallelExecutionStrategy.execute wreg (.impl init) plan
          ⟨none, none, false⟩ = .ok res →
      res.dataSet "A" = some v) ∧
    (∀ (init : DataSet) (plan : ExecutionPlan) (b? : Option DataBuilder),
      init.contains "A" = true →
      ParallelExecutionStrategy.execute (updateReg wreg "A" b?) (.impl init)
          plan ⟨none, none, false⟩ =
        ParallelExecutionStrategy.execute wreg (.impl init) plan
          ⟨none, none, false⟩)) :=
  ⟨wreg_wellTyped, C4_skip_semantics wreg ⟨none, none, false⟩ "A" wreg_wellTyped⟩

/-- Witness for C5: the throwing builder for `B` in the plan `wplan`. -/
theorem C5_builder_throw_witness :
    wreg "B" = some (throwingBuilder "B" "boom") ∧
    (∀ ds, ((throwingBuilder "B" "boom").build ds).outcome = .thrown "boom") ∧
    emptyDataSet.contains "B" = false ∧
    "B" ∈ wplan.executionOrder ∧
    "B" ∈ wplan.parallelExecutionLevels.join ∧
    (∀ o : ExecutionOptions, o.builderTimeout = none →
      (o.continueOnError = false →
        SequentialExecutionStrategy.execute wreg (.impl emptyDataSet) wplan o =
          .error (.builderExecutionError (throwingBuilder "B" "boom").name "B"
            (.plainError "boom")) ∧
        ParallelExecutionStrategy.execute wreg (.impl emptyDataSet) wplan o =
          .error (.builderExecutionError (throwingBuilder "B" "boom").name "B"
            (.plainError "boom"))) ∧
      (o.continueOnError = true →
        (∃ res, SequentialExecutionStrategy.execute wreg (.impl emptyDataSet)
            wplan o = .ok res ∧ res.dataSet.contains "B" = false) ∧
        (∃ res, ParallelExecutionStrategy.execute wreg (.impl emptyDataSet)
            wplan o = .ok res ∧ res.dataSet.contains "B" = false))) := by
  have hs : ∀ o : ExecutionOptions, o.builderTimeout = none →
      ∀ u ∈ wplan.executionOrder, u ≠ "B" → StepSucceeds wreg o u := by
    intro o hto u hu hut
    have hu2 : u = "A" ∨ u = "B" := by simpa [wplan] using hu
    rcases hu2 with rfl | rfl
    · exact okBuilder_stepSucceeds hto rfl
    · exact absurd rfl hut
  have hp : ∀ o : ExecutionOptions, o.builderTimeout = none →
      ∀ u ∈ wplan.parallelExecutionLevels.join, u ≠ "B" → StepSucceeds wreg o u := by
    intro o hto u hu hut
    have hj : wplan.parallelExecutionLevels.join = ["A", "B"] := rfl
    rw [hj] at hu
    have hu2 : u = "A" ∨ u = "B" := by simpa using hu
    rcases hu2 with rfl | rfl
    · exact okBuilder_stepSucceeds hto rfl
    · exact absurd rfl hut
  exact ⟨rfl, fun _ => rfl, rfl, by decide, by decide,
    C5_builder_throw wreg wplan emptyDataSet "B" "boom" (throwingBuilder "B" "boom")
      rfl (fun _ => rfl) rfl (by decide) (by decide) hs hp⟩

/-- Witness for C10: the plan `wplanMissing` mentions `C`, which `wreg`
has no builder for; the run is in continue-on-error mode and still
rejects. -/
theorem C10_missing_builder_rejects_witness :
    wreg "C" = none ∧
    emptyDataSet.contains "C" = false ∧
    "C" ∈ wplanMissing.executionOrder ∧
    "C" ∈ wplanMissing.parallelExecutionLevels.join ∧
    (∀ u ∈ wplanMissing.executionOrder, u ≠ "C" →
      StepSucceeds wreg ⟨none, none, true⟩ u) ∧
    (∀ u ∈ wplanMissing.parallelExecutionLevels.join, u ≠ "C" →
      StepSucceeds wreg ⟨none, none, true⟩ u) ∧
    ((∀ (ds : DataSet) (st : StatsState), ds.contains "C" = false →
      executeBuilder wreg "C" ds ⟨none, none, true⟩ st =
        .error (.plainError ("No builder found for data type: " ++ "C"))) ∧
    SequentialExecutionStrategy.execute wreg (.impl emptyDataSet) wplanMissing
        ⟨none, none, true⟩ =
      .error (.plainError ("No builder found for data type: " ++ "C")) ∧
    ParallelExecutionStrategy.execute wreg (.impl emptyDataSet) wplanMissing
        ⟨none, none, true⟩ =
      .error (.plainError ("No builder found for data type: " ++ "C"))) := by
  have hs : ∀ u ∈ wplanMissing.executionOrder, u ≠ "C" →
      StepSucceeds wreg ⟨none, none, true⟩ u := by
    intro u hu hut
    have hu2 : u = "A" ∨ u = "C" := by simpa [wplanMissing] using hu
    rcases hu2 with rfl | rfl
    · exact okBuilder_stepSucceeds rfl rfl
    · exact absurd rfl hut
  have hp : ∀ u ∈ wplanMissing.parallelExecutionLevels.join, u ≠ "C" →
      StepSucceeds wreg ⟨none, none, true⟩ u := by
    intro u hu hut
    have hj : wplanMissing.parallelExecutionLevels.join = ["A", "C"] := rfl
    rw [hj] at hu
    have hu2 : u = "A" ∨ u = "C" := by simpa using hu
    rcases hu2 with rfl | rfl
    · exact okBuilder_stepSucceeds rfl rfl
    · exact absurd rfl hut
  exact ⟨rfl, rfl, by decide, by decide, hs, hp,
    C10_missing_builder_rejects wreg ⟨none, none, true⟩ wplanMissing emptyDataSet
      "C" rfl rfl (by decide) (by decide) hs hp⟩

/-- A builder whose `build` takes 5 ms. -/
def slowBuilder (t : String) : DataBuilder where
  name := "Builder" ++ t
  build := fun _ => ⟨5, .ok (some ⟨t, 0⟩)⟩

/-- A registry answering every type with the slow builder for `A`. -/
def wslowreg : Registry := fun _ => some (slowBuilder "A")

/-- Witness for C7: a 2 ms timeout against the 5 ms builder. -/
theorem C7_timeout_behaviour_witness :
    (⟨none, some 2, false⟩ : ExecutionOptions).builderTimeout = some 2 ∧
    (2 : Nat) ≠ 0 ∧
    emptyDataSet.contains "A" = false ∧
    wslowreg "A" = some (slowBuilder "A") ∧
    ((slowBuilder "A").build emptyDataSet).time > 2 ∧
    (awaitWithTimeout ⟨none, some 2, false⟩ "A"
        ((slowBuilder "A").build emptyDataSet) =
      .error (.plainError ("Builder for " ++ "A" ++ " timed out after "
        ++ toString (2 : Nat) ++ "ms")) ∧
    ((⟨none, some 2, false⟩ : ExecutionOptions).continueOnError = false →
      executeBuilder wslowreg "A" emptyDataSet ⟨none, some 2, false⟩ ⟨[], 0, 0⟩ =
        .error (.builderExecutionError (slowBuilder "A").name "A"
          (.plainError ("Builder for " ++ "A" ++ " timed out after "
            ++ toString (2 : Nat) ++ "ms")))) ∧
    ((⟨none, some 2, false⟩ : ExecutionOptions).continueOnError = true →
      executeBuilder wslowreg "A" emptyDataSet ⟨none, some 2, false⟩ ⟨[], 0, 0⟩ =
        .ok (⟨"A", false, none, 0⟩, ⟨[], 0, 0⟩))) :=
  ⟨rfl, by decide, rfl, rfl, by decide,
    C7_timeout_behaviour wslowreg "A" emptyDataSet ⟨none, some 2, false⟩
      ⟨[], 0, 0⟩ (slowBuilder "A") 2 rfl (by decide) rfl rfl (by decide)⟩

end DBF
